import Mathlib

/-!
Verification development for the TTS-Dataset voice-catalog engine
(`site/src/App.jsx`).  The JavaScript source is shallowly embedded:
every pure computation of the filter/aggregation/compatibility core is
translated into an executable Lean definition, and the behavioural
claims about the engine are proved as theorems over those definitions.

Modelling conventions:
* JS strings are Lean `String`s; all catalog tokens are ASCII, so
  `String.prototype.toLowerCase` is modelled by ASCII `Char.toLower`.
* JS numbers used for coordinates are modelled as `ℚ` (exact rationals).
* `Array.prototype.sort` is stable (ES2019); a stable comparator sort is
  modelled by sorting index-tagged elements with the comparator refined
  by original position.
* JS `Map`/`Set` (insertion-ordered) are modelled by association lists /
  first-occurrence-deduplicated lists.
-/

/-- Models `toLower` from App.jsx: `String(value || "").toLowerCase()`,
restricted to ASCII (every catalog token is ASCII). -/
def jsToLower (s : String) : String :=
  String.mk (s.data.map Char.toLower)

/-- Models `String.prototype.trim`: strip leading and trailing
whitespace. -/
def jsTrim (s : String) : String :=
  String.mk (((s.data.dropWhile Char.isWhitespace).reverse.dropWhile
    Char.isWhitespace).reverse)

/-- A character admitted by the normalizer: the class `[a-z0-9]`. -/
def isTokenChar (c : Char) : Bool :=
  ('a' ≤ c && c ≤ 'z') || ('0' ≤ c && c ≤ '9')

/-- Models `normalizeToken` from App.jsx:
`toLower(value).replace(/[^a-z0-9]+/g, "")` — lower-case, then delete
every character outside `[a-z0-9]`. -/
def normalizeToken (value : String) : String :=
  String.mk ((jsToLower value).data.filter isTokenChar)

/-- `bs` occurs at the start of `as` (helper for the substring test). -/
def listStartsWith : List Char → List Char → Bool
  | _, [] => true
  | [], _ :: _ => false
  | a :: as, b :: bs => a = b && listStartsWith as bs

/-- `n` occurs contiguously inside `h` (helper for the substring test). -/
def listContainsSeq : List Char → List Char → Bool
  | [], n => listStartsWith [] n
  | a :: t, n => listStartsWith (a :: t) n || listContainsSeq t n

/-- Models `String.prototype.includes`: substring containment. -/
def strIncludes (h n : String) : Bool :=
  listContainsSeq h.data n.data

/-- Models the short-circuiting numeric `x || y` used in JS sort
comparators: the first operand unless it is `0`. -/
def jsOr (x y : Int) : Int :=
  if x = 0 then y else x

/-- Strict code-point comparison of character lists, as used by the JS
default (code-unit) string order. -/
def listLt : List Char → List Char → Bool
  | [], [] => false
  | [], _ :: _ => true
  | _ :: _, [] => false
  | a :: as, b :: bs => if a < b then true else if b < a then false else listLt as bs

/-- Code-point (UTF-16 code unit, for ASCII equal to code point) strict
string order: the order used by a comparator-less `Array.prototype.sort`. -/
def strLt (a b : String) : Bool :=
  listLt a.data b.data

/-- Non-strict code-point string order. -/
def strLe (a b : String) : Bool :=
  !(strLt b a)

/-- Primary collation key of the default-locale `localeCompare`:
the case-folded character sequence. -/
def lcPrimary (s : String) : List Char :=
  s.data.map Char.toLower

/-- Tertiary collation key of the default-locale `localeCompare`:
the case pattern, with lower case weighted before upper case. -/
def lcTertiary (s : String) : List Char :=
  s.data.map (fun c => if c.isUpper then 'B' else 'A')

/-- Strict order underlying `localeCompare` (default locale, ASCII data):
case-insensitive primary comparison, with the case pattern
(lower case first) breaking primary ties. -/
def lcLt (a b : String) : Bool :=
  listLt (lcPrimary a) (lcPrimary b) ||
    (lcPrimary a = lcPrimary b && listLt (lcTertiary a) (lcTertiary b))

/-- Models `String.prototype.localeCompare` under the default locale for
the ASCII strings of this catalog: a negative, zero or positive result
according to the collation order `lcLt`. -/
def jsLocaleCompare (a b : String) : Int :=
  if lcLt a b then -1 else if lcLt b a then 1 else 0

/-- Insert `x` into a sorted list, after every element that is `le`-below
or tied with it (the placement a stable sort produces). -/
def insertLe (le : α → α → Bool) (x : α) : List α → List α
  | [] => [x]
  | y :: ys => if le x y then x :: y :: ys else y :: insertLe le x ys

/-- Stable insertion sort with a boolean `le`. -/
def sortLe (le : α → α → Bool) : List α → List α
  | [] => []
  | x :: xs => insertLe le x (sortLe le xs)

/-- Tag every element with its position (JS array index). -/
def withIdx : List α → Nat → List (Nat × α)
  | [], _ => []
  | a :: l, i => (i, a) :: withIdx l (i + 1)

/-- The boolean order a stable sort effectively applies when driven by a
JS comparator `cmp`: comparator verdict first, original position on ties. -/
def cmpIdxLe (cmp : α → α → Int) (p q : Nat × α) : Bool :=
  decide (cmp p.2 q.2 < 0) || (decide (cmp p.2 q.2 = 0) && decide (p.1 ≤ q.1))

/-- Models stable `Array.prototype.sort(cmp)` on index-tagged elements. -/
def jsSortWithIdx (cmp : α → α → Int) (l : List α) : List (Nat × α) :=
  sortLe (cmpIdxLe cmp) (withIdx l 0)

/-- Models stable `Array.prototype.sort(cmp)`. -/
def jsSortBy (cmp : α → α → Int) (l : List α) : List α :=
  (jsSortWithIdx cmp l).map Prod.snd

/-- Models `Set.prototype.add` on an insertion-ordered set. -/
def addSet (acc : List String) (x : String) : List String :=
  if x ∈ acc then acc else acc ++ [x]

/-- Models building a JS `Set` from a list (insertion order kept). -/
def jsSetOf (l : List String) : List String :=
  l.foldl addSet []

/-- First-occurrence deduplication, the recursion used to reason about
insertion-ordered JS `Set`s and `Map` key sets. -/
def firstDedup : List String → List String
  | [] => []
  | a :: rest => a :: firstDedup (rest.filter (fun x => x ≠ a))
termination_by l => l.length
decreasing_by
  simp only [List.length_cons]
  exact Nat.lt_succ_of_le (List.length_filter_le _ _)

/-- One step of accumulating a value into an insertion-ordered JS `Map`
of groups: update the existing entry for the key, or append a fresh one. -/
def groupUpd (key : β → String) (fresh : β → γ) (upd : γ → β → γ)
    (acc : List (String × γ)) (b : β) : List (String × γ) :=
  if acc.any (fun e => e.1 = key b) then
    acc.map (fun e => if e.1 = key b then (e.1, upd e.2 b) else e)
  else acc ++ [(key b, upd (fresh b) b)]

/-- Models the `Map`-grouping loops of App.jsx: fold the input into an
insertion-ordered association list of per-key accumulated groups. -/
def groupBy (key : β → String) (fresh : β → γ) (upd : γ → β → γ) (l : List β) :
    List (String × γ) :=
  l.foldl (groupUpd key fresh upd) []

/-- The group a key ends up with: fresh from the first member, then
updated with every member in order (`none` when there is no member). -/
def aggOf (fresh : β → γ) (upd : γ → β → γ) : List β → Option γ
  | [] => none
  | b :: rest => some (rest.foldl upd (upd (fresh b) b))

/-- A voice record of the payload (§3 of the design; absent fields are
defaulted as the code does: absent strings to `""`, absent numeric geo
fields to `none`). -/
structure Voice where
  id : String := ""
  name : String := ""
  voice_key : String := ""
  mode : String := ""
  gender : String := ""
  platform : String := ""
  platform_display : String := ""
  runtime : String := ""
  provider : String := ""
  engine : String := ""
  engine_family : String := ""
  distribution_channel : String := ""
  language_name : String := ""
  language_display : String := ""
  language_codes : List String := []
  script : String := ""
  written_script : String := ""
  country_code : String := ""
  country_name : String := ""
  latitude : Option ℚ := none
  longitude : Option ℚ := none
deriving DecidableEq

/-- An assistive-technology solution record of the payload. -/
structure Solution where
  id : String := ""
  name : String := ""
  vendor : String := ""
  category : String := ""
  platforms : List String := []
  links : List String := []
deriving DecidableEq

/-- One row of `solution_runtime_support`. -/
structure RuntimeSupportRow where
  solution_id : String := ""
  runtime : String := ""
  support_level : String := ""
  voice_origin : String := ""
  requires_enrollment : Bool := false
  requires_user_asset : Bool := false
deriving DecidableEq

/-- One row of `solution_provider_support`. -/
structure ProviderSupportRow where
  solution_id : String := ""
  provider : String := ""
  support_level : String := ""
  voice_origin : String := ""
  requires_enrollment : Bool := false
  requires_user_asset : Bool := false
deriving DecidableEq

/-- The payload's per-dimension facet count tables (value ↦ count). -/
structure Facets where
  platforms : List (String × Nat) := []
  genders : List (String × Nat) := []
  runtimes : List (String × Nat) := []
  providers : List (String × Nat) := []
  engine_families : List (String × Nat) := []
  distribution_channels : List (String × Nat) := []
  engines : List (String × Nat) := []
deriving DecidableEq

/-- The payload document (the parts consumed by the core logic). -/
structure Payload where
  voices : List Voice := []
  solutions : List Solution := []
  solution_runtime_support : List RuntimeSupportRow := []
  solution_provider_support : List ProviderSupportRow := []
  facets : Facets := {}
deriving DecidableEq

/-- Models `matchesSelected` from App.jsx: an empty selection list
restricts nothing, a non-empty one requires membership. -/
def matchesSelected (selected : List String) (value : String) : Bool :=
  if selected.isEmpty then true else selected.contains value

/-- Models `supportScore` from App.jsx. -/
def supportScore (level : String) : Nat :=
  if jsToLower level = "native" then 3
  else if jsToLower level = "compatible" then 2
  else if jsToLower level = "possible" then 1
  else 0

/-- Models `isArabicScriptMatch` from App.jsx. -/
def isArabicScriptMatch (query : String) (v : Voice) : Bool :=
  if !(strIncludes query "arab") then false
  else jsToLower v.script = "arab" || strIncludes (jsToLower v.written_script) "arab"

/-- Models `matchesAssistivePlatform` from App.jsx. -/
def matchesAssistivePlatform (v : Voice) (selectedPlatform : String) : Bool :=
  let target := jsToLower selectedPlatform
  if target = "" || target = "all" then true
  else
    let voicePlatform := jsToLower v.platform
    let voicePlatformDisplay := jsToLower v.platform_display
    if voicePlatform = target then true
    else if voicePlatform = "online" || voicePlatform = "local" then true
    else if strIncludes voicePlatformDisplay "cross-platform" then true
    else false

/-- The selection state consumed by the primary voice filter. -/
structure VoiceSelections where
  query : String := ""
  selectedModes : List String := []
  selectedGenders : List String := []
  selectedPlatforms : List String := []
  selectedRuntimes : List String := []
  selectedProviders : List String := []
  selectedEngineFamilies : List String := []
  selectedDistributionChannels : List String := []
  excludedEngines : List String := []
deriving DecidableEq

/-- The search haystack built by `filteredVoices`: the listed voice
fields (falsy ones dropped) joined by spaces and lower-cased. -/
def voiceHaystack (v : Voice) : String :=
  jsToLower (String.intercalate " "
    (([v.id, v.name, v.country_code, v.country_name, v.language_name,
       v.language_display, v.runtime, v.provider, v.engine_family,
       v.distribution_channel, v.script, v.written_script] ++
      v.language_codes).filter (fun s => s ≠ "")))

/-- The per-voice predicate of `filteredVoices` from App.jsx: every facet
check ANDed, then the free-text query against the haystack with the
Arabic-script recovery branch. -/
def voiceMatches (sel : VoiceSelections) (v : Voice) : Bool :=
  let q := jsTrim (jsToLower sel.query)
  matchesSelected sel.selectedModes v.mode &&
  matchesSelected sel.selectedGenders v.gender &&
  matchesSelected sel.selectedPlatforms v.platform &&
  matchesSelected sel.selectedRuntimes v.runtime &&
  matchesSelected sel.selectedProviders v.provider &&
  matchesSelected sel.selectedEngineFamilies v.engine_family &&
  matchesSelected sel.selectedDistributionChannels v.distribution_channel &&
  !(sel.excludedEngines.contains v.engine) &&
  (q = "" || strIncludes (voiceHaystack v) q || isArabicScriptMatch q v)

/-- Models `filteredVoices` from App.jsx. -/
def filteredVoices (sel : VoiceSelections) (voices : List Voice) : List Voice :=
  voices.filter (voiceMatches sel)

/-- The scalar stats derived from the filtered list. -/
structure FilteredStats where
  voices : Nat
  online : Nat
  offline : Nat
deriving DecidableEq

/-- Models `filteredStats` from App.jsx: total, `mode === "online"`
count, and the remainder as offline. -/
def filteredStats (l : List Voice) : FilteredStats :=
  let online := (l.filter (fun v => v.mode = "online")).length
  { voices := l.length, online := online, offline := l.length - online }

/-- The selection state of the assistive-technology view. -/
structure AccSelections where
  accLanguageQuery : String := ""
  accMode : String := "all"
  accPlatform : String := "all"
deriving DecidableEq

/-- The language/script-only haystack used by `accessibilityVoices`. -/
def accHaystack (v : Voice) : String :=
  jsToLower (String.intercalate " "
    (([v.language_name, v.language_display, v.script, v.written_script] ++
      v.language_codes).filter (fun s => s ≠ "")))

/-- The per-voice predicate of `accessibilityVoices` from App.jsx. -/
def accVoiceMatches (asel : AccSelections) (v : Voice) : Bool :=
  let q := jsTrim (jsToLower asel.accLanguageQuery)
  (asel.accMode = "all" || v.mode = asel.accMode) &&
  matchesAssistivePlatform v asel.accPlatform &&
  (q = "" || strIncludes (accHaystack v) q || isArabicScriptMatch q v)

/-- Models `accessibilityVoices` from App.jsx: the voice pool the
compatibility joiner scores against. -/
def accessibilityVoices (asel : AccSelections) (voices : List Voice) : List Voice :=
  voices.filter (accVoiceMatches asel)

/-- An internal compatibility rule, as prepared by the grouping loops of
`solutionRows` (token normalized, level scored, origin canonicalized). -/
structure Rule where
  token : String
  score : Nat
  voiceOrigin : String
  requiresEnrollment : Bool
  requiresUserAsset : Bool
deriving DecidableEq

/-- The internal rule built from one `solution_runtime_support` row. -/
def runtimeRuleOf (r : RuntimeSupportRow) : Rule :=
  { token := normalizeToken r.runtime
    score := supportScore r.support_level
    voiceOrigin := jsToLower (jsTrim r.voice_origin)
    requiresEnrollment := r.requires_enrollment
    requiresUserAsset := r.requires_user_asset }

/-- The internal rule built from one `solution_provider_support` row. -/
def providerRuleOf (r : ProviderSupportRow) : Rule :=
  { token := normalizeToken r.provider
    score := supportScore r.support_level
    voiceOrigin := jsToLower (jsTrim r.voice_origin)
    requiresEnrollment := r.requires_enrollment
    requiresUserAsset := r.requires_user_asset }

/-- The runtime rules of one solution: `runtimeBySolution` groups the
rows by `solution_id` (rows with an empty id skipped) keeping order, so
`runtimeBySolution.get(id)` is the ordered sublist with that id. -/
def runtimeRulesFor (rows : List RuntimeSupportRow) (id : String) : List Rule :=
  (rows.filter (fun r => r.solution_id ≠ "" && r.solution_id = id)).map runtimeRuleOf

/-- The provider rules of one solution (see `runtimeRulesFor`). -/
def providerRulesFor (rows : List ProviderSupportRow) (id : String) : List Rule :=
  (rows.filter (fun r => r.solution_id ≠ "" && r.solution_id = id)).map providerRuleOf

/-- The inner per-voice loop of `solutionRows`: best score over the
matching runtime rules, then over the matching provider rules. -/
def voiceBest (rr pr : List Rule) (v : Voice) : Nat :=
  let runtimeToken := normalizeToken v.runtime
  let providerToken := normalizeToken v.provider
  pr.foldl (fun acc r => if r.token = providerToken then max acc r.score else acc)
    (rr.foldl (fun acc r => if r.token = runtimeToken then max acc r.score else acc) 0)

/-- The match-reason tag computed by `solutionRows` for one voice. -/
def voiceReason (rr pr : List Rule) (v : Voice) : String :=
  let runtimeMatch := rr.any (fun r => r.token = normalizeToken v.runtime)
  let providerMatch := pr.any (fun r => r.token = normalizeToken v.provider)
  if runtimeMatch && providerMatch then "runtime + provider"
  else if runtimeMatch then "runtime"
  else if providerMatch then "provider"
  else ""

/-- One recorded match of a voice against a solution. -/
structure MatchedVoice where
  voice : Voice
  score : Nat
  reason : String
deriving DecidableEq

/-- The running state of the per-solution voice loop. -/
structure ScanState where
  nativeCount : Nat
  compatibleCount : Nat
  possibleCount : Nat
  total : Nat
  matchedVoices : List MatchedVoice
deriving DecidableEq

/-- One iteration of the `for (const voice of accessibilityVoices)` loop
of `solutionRows`. -/
def scanStep (rr pr : List Rule) (st : ScanState) (v : Voice) : ScanState :=
  let best := voiceBest rr pr v
  if best = 0 then st
  else
    { nativeCount := st.nativeCount + (if 3 ≤ best then 1 else 0)
      compatibleCount := st.compatibleCount + (if 3 ≤ best then 0 else if 2 ≤ best then 1 else 0)
      possibleCount := st.possibleCount + (if 2 ≤ best then 0 else 1)
      total := st.total + 1
      matchedVoices := st.matchedVoices ++ [⟨v, best, voiceReason rr pr v⟩] }

/-- The whole per-solution voice loop. -/
def scanVoices (rr pr : List Rule) (pool : List Voice) : ScanState :=
  pool.foldl (scanStep rr pr) ⟨0, 0, 0, 0, []⟩

/-- A scored solution row as emitted by `solutionRows` (the spread
solution fields plus the computed aggregates). -/
structure SolutionRow where
  id : String
  name : String
  vendor : String
  category : String
  platforms : List String
  links : List String
  total : Nat
  nativeCount : Nat
  compatibleCount : Nat
  possibleCount : Nat
  voiceOrigins : List String
  requiresEnrollment : Bool
  requiresUserAsset : Bool
  matchedVoices : List MatchedVoice
deriving DecidableEq

/-- The comparator of the final `solutionRows` sort:
`b.total - a.total || a.name.localeCompare(b.name)`. -/
def solutionCmp (a b : SolutionRow) : Int :=
  jsOr ((b.total : Int) - (a.total : Int)) (jsLocaleCompare a.name b.name)

/-- Models `solutionRows` from App.jsx: per solution, apply the
category/platform/voice-origin filters, score the voice pool against the
solution's rules, and sort the emitted rows. -/
def solutionRows (p : Payload) (assistiveSubtab accPlatform solutionVoiceOrigin : String)
    (pool : List Voice) : List SolutionRow :=
  let pre := p.solutions.filterMap (fun s =>
    if s.id = "" then none
    else if assistiveSubtab = "aac" ∧ jsToLower s.category ≠ "aac" then none
    else if assistiveSubtab = "screenreader" ∧ jsToLower s.category ≠ "screenreader" then none
    else if accPlatform ≠ "all" ∧ ¬ ((s.platforms.map jsToLower).contains accPlatform) then none
    else
      let rr := runtimeRulesFor p.solution_runtime_support s.id
      let pr := providerRulesFor p.solution_provider_support s.id
      let origins := jsSetOf (((rr ++ pr).map (fun r => r.voiceOrigin)).filter (fun o => o ≠ ""))
      if solutionVoiceOrigin ≠ "all" ∧ ¬ (origins.contains solutionVoiceOrigin) then none
      else
        let st := scanVoices rr pr pool
        some
          { id := s.id, name := s.name, vendor := s.vendor, category := s.category
            platforms := s.platforms, links := s.links
            total := st.total, nativeCount := st.nativeCount
            compatibleCount := st.compatibleCount, possibleCount := st.possibleCount
            voiceOrigins := sortLe strLe origins
            requiresEnrollment := (rr ++ pr).any (fun r => r.requiresEnrollment)
            requiresUserAsset := (rr ++ pr).any (fun r => r.requiresUserAsset)
            matchedVoices := st.matchedVoices })
  jsSortBy solutionCmp pre

/-- One row of the voice-banking provider roll-up. -/
structure BankRow where
  provider : String
  voiceOrigins : List String
  appCount : Nat
  apps : List String
deriving DecidableEq

/-- The accumulated sets of one roll-up provider group. -/
structure BankGroup where
  voiceOrigins : List String
  apps : List String
deriving DecidableEq

/-- The canonical voice-origin of a provider-support row:
`String(row.voice_origin || "").trim().toLowerCase()`. -/
def rowOrigin (r : ProviderSupportRow) : String :=
  jsToLower (jsTrim r.voice_origin)

/-- The comparator of the roll-up sort:
`b.appCount - a.appCount || a.provider.localeCompare(b.provider)`. -/
def bankCmp (a b : BankRow) : Int :=
  jsOr ((b.appCount : Int) - (a.appCount : Int)) (jsLocaleCompare a.provider b.provider)

/-- The allowed voice-origin set of the roll-up: the selected origin, or
the fixed voice-banking set when unrestricted. -/
def bankAllowedOrigins (solutionVoiceOrigin : String) : List String :=
  if solutionVoiceOrigin = "all" then ["banked", "cloned", "hybrid", "imported"]
  else [solutionVoiceOrigin]

/-- The provider-support rows the roll-up keeps: rows of a visible
solution, with an allowed origin and a non-empty trimmed provider name. -/
def bankKept (providerRows : List ProviderSupportRow) (solRows : List SolutionRow)
    (solutionVoiceOrigin : String) : List ProviderSupportRow :=
  providerRows.filter (fun r =>
    (solRows.map (fun s => s.id)).contains r.solution_id &&
    (bankAllowedOrigins solutionVoiceOrigin).contains (rowOrigin r) &&
    jsTrim r.provider ≠ "")

/-- One accumulation step of the roll-up's `byProvider` map. -/
def bankUpd (g : BankGroup) (r : ProviderSupportRow) : BankGroup :=
  { voiceOrigins := addSet g.voiceOrigins (rowOrigin r)
    apps := addSet g.apps r.solution_id }

/-- The roll-up's `byProvider` map: the kept rows grouped by trimmed
provider name, accumulating origin and solution-id sets. -/
def bankGrouped (providerRows : List ProviderSupportRow) (solRows : List SolutionRow)
    (solutionVoiceOrigin : String) : List (String × BankGroup) :=
  groupBy (fun r => jsTrim r.provider)
    (fun _ => ({ voiceOrigins := [], apps := [] } : BankGroup)) bankUpd
    (bankKept providerRows solRows solutionVoiceOrigin)

/-- The reshaping of one provider group into an emitted roll-up row. -/
def bankFinalize (e : String × BankGroup) : BankRow :=
  { provider := e.1
    voiceOrigins := sortLe strLe e.2.voiceOrigins
    appCount := e.2.apps.length
    apps := sortLe strLe e.2.apps }

/-- Models `voiceBankingProviders` from App.jsx: keep the provider rules
of visible solutions whose origin is allowed, group them by trimmed
provider name, and emit sorted rows with app counts. -/
def voiceBankingProviders (providerRows : List ProviderSupportRow)
    (solRows : List SolutionRow) (solutionVoiceOrigin : String) : List BankRow :=
  jsSortBy bankCmp ((bankGrouped providerRows solRows solutionVoiceOrigin).map bankFinalize)

/-- The grouping country key of `mapPoints`: `voice.country_code || "ZZ"`. -/
def countryKey (v : Voice) : String :=
  if v.country_code = "" then "ZZ" else v.country_code

/-- The voices that reach geo aggregation: both coordinates present
(`voice.latitude == null || voice.longitude == null` skips the voice). -/
def geoVoices (l : List Voice) : List Voice :=
  l.filter (fun v => v.latitude.isSome && v.longitude.isSome)

/-- `Number(voice.latitude)` of a geo-taggable voice. -/
def latQ (v : Voice) : ℚ := v.latitude.getD 0

/-- `Number(voice.longitude)` of a geo-taggable voice. -/
def lonQ (v : Voice) : ℚ := v.longitude.getD 0

/-- The language label used in per-country language counts:
`language_display || language_name || language_codes?.[0] || "Unknown"`. -/
def langOf (v : Voice) : String :=
  if v.language_display ≠ "" then v.language_display
  else if v.language_name ≠ "" then v.language_name
  else
    match v.language_codes.head? with
    | some c => if c ≠ "" then c else "Unknown"
    | none => "Unknown"

/-- `languages.set(lang, (languages.get(lang) || 0) + 1)` on an
insertion-ordered count map. -/
def bumpLang (langs : List (String × Nat)) (k : String) : List (String × Nat) :=
  if langs.any (fun e => e.1 = k) then
    langs.map (fun e => if e.1 = k then (e.1, e.2 + 1) else e)
  else langs ++ [(k, 1)]

/-- A per-country accumulator of `mapPoints` before finalization. -/
structure RawCluster where
  country_code : String
  country_name : String
  count : Nat
  online_count : Nat
  offline_count : Nat
  latitude_sum : ℚ
  longitude_sum : ℚ
  points : Nat
  languages : List (String × Nat)
deriving DecidableEq

/-- The fresh (all-zero) cluster created when a country is first seen. -/
def freshCluster (v : Voice) : RawCluster :=
  { country_code := countryKey v
    country_name := if v.country_name = "" then "Unknown" else v.country_name
    count := 0
    online_count := 0
    offline_count := 0
    latitude_sum := 0
    longitude_sum := 0
    points := 0
    languages := [] }

/-- One iteration of the `mapPoints` accumulation loop body. -/
def updCluster (c : RawCluster) (v : Voice) : RawCluster :=
  { c with
    count := c.count + 1
    online_count := c.online_count + (if v.mode = "online" then 1 else 0)
    offline_count := c.offline_count + (if v.mode = "online" then 0 else 1)
    latitude_sum := c.latitude_sum + latQ v
    longitude_sum := c.longitude_sum + lonQ v
    points := c.points + 1
    languages := bumpLang c.languages (langOf v) }

/-- The grouped per-country accumulators, in discovery order. -/
def mapClusters (l : List Voice) : List RawCluster :=
  (groupBy countryKey freshCluster updCluster (geoVoices l)).map Prod.snd

/-- A finalized map marker. -/
structure MapPoint where
  country_code : String
  country_name : String
  count : Nat
  online_count : Nat
  offline_count : Nat
  latitude_sum : ℚ
  longitude_sum : ℚ
  points : Nat
  languages : List (String × Nat)
  latitude : ℚ
  longitude : ℚ
  top_languages : List (String × Nat)
deriving DecidableEq

/-- The comparator of the top-languages sort: `b[1] - a[1]`. -/
def langCmp (a b : String × Nat) : Int :=
  (b.2 : Int) - (a.2 : Int)

/-- The `{...p, latitude, longitude, top_languages}` finalization step. -/
def finalizeCluster (c : RawCluster) : MapPoint :=
  { country_code := c.country_code
    country_name := c.country_name
    count := c.count
    online_count := c.online_count
    offline_count := c.offline_count
    latitude_sum := c.latitude_sum
    longitude_sum := c.longitude_sum
    points := c.points
    languages := c.languages
    latitude := c.latitude_sum / (c.points : ℚ)
    longitude := c.longitude_sum / (c.points : ℚ)
    top_languages := (jsSortBy langCmp c.languages).take 5 }

/-- The comparator of the final map-point sort: `b.count - a.count`. -/
def pointCmp (a b : MapPoint) : Int :=
  (b.count : Int) - (a.count : Int)

/-- The finalized markers before sorting (zero-point groups filtered,
exactly as `Array.from(grouped.values()).filter((p) => p.points)`). -/
def mapPointsPre (l : List Voice) : List MapPoint :=
  ((mapClusters l).filter (fun c => c.points ≠ 0)).map finalizeCluster

/-- The stable count sort of the markers, indices kept. -/
def mapPointsIdx (l : List Voice) : List (Nat × MapPoint) :=
  jsSortWithIdx pointCmp (mapPointsPre l)

/-- Models `mapPoints` from App.jsx. -/
def mapPoints (l : List Voice) : List MapPoint :=
  (mapPointsIdx l).map Prod.snd

/-- The sorted facet keys used by every option list:
`Object.keys(table).sort((a, b) => a.localeCompare(b))`. -/
def sortedFacetKeys (table : List (String × Nat)) : List String :=
  jsSortBy jsLocaleCompare (table.map Prod.fst)

/-- Models `platformOptions` from App.jsx. -/
def platformOptions (p : Payload) : List String :=
  "all" :: sortedFacetKeys p.facets.platforms

/-- Models `genderOptions` from App.jsx. -/
def genderOptions (p : Payload) : List String :=
  "all" :: sortedFacetKeys p.facets.genders

/-- Models `runtimeOptions` from App.jsx. -/
def runtimeOptions (p : Payload) : List String :=
  "all" :: sortedFacetKeys p.facets.runtimes

/-- Models `providerOptions` from App.jsx. -/
def providerOptions (p : Payload) : List String :=
  "all" :: sortedFacetKeys p.facets.providers

/-- Models `engineFamilyOptions` from App.jsx. -/
def engineFamilyOptions (p : Payload) : List String :=
  "all" :: sortedFacetKeys p.facets.engine_families

/-- Models `distributionChannelOptions` from App.jsx. -/
def distributionChannelOptions (p : Payload) : List String :=
  "all" :: sortedFacetKeys p.facets.distribution_channels

/-- Models `engineOptions` from App.jsx (note: no sentinel prefix). -/
def engineOptions (p : Payload) : List String :=
  sortedFacetKeys p.facets.engines

/-- Models `Math.ceil(n / P)` for natural `n` and positive `P`. -/
def jsMathCeilDiv (n P : Nat) : Nat :=
  (n + P - 1) / P

/-- Models the `Math.max(1, Math.ceil(len / size))` page-count formula
shared by the three paginated views. -/
def pageCountOf (n P : Nat) : Nat :=
  max 1 (jsMathCeilDiv n P)

/-- Models the `items.slice((page-1)*size, page*size)` window. -/
def pageSlice (items : List α) (P page : Nat) : List α :=
  (items.drop ((page - 1) * P)).take P

/-- `VOICES_PAGE_SIZE` from App.jsx. -/
def VOICES_PAGE_SIZE : Nat := 60

/-- Models `voicePageCount` from App.jsx. -/
def voicePageCount (filtered : List Voice) : Nat :=
  pageCountOf filtered.length VOICES_PAGE_SIZE

/-- Models `visibleVoices` from App.jsx. -/
def visibleVoices (filtered : List Voice) (voicePage : Nat) : List Voice :=
  pageSlice filtered VOICES_PAGE_SIZE voicePage

/-- A binder-free "every element satisfies P" predicate. -/
def ListAll (P : α → Prop) : List α → Prop
  | [] => True
  | a :: l => P a ∧ ListAll P l

/-- The gender-only selection used to exhibit case sensitivity. -/
def selUpperMale : VoiceSelections := { selectedGenders := ["Male"] }

/-- A voice with the lower-case gender label. -/
def voiceLowerMale : Voice := { id := "vm", gender := "male" }

/-- The azure-scenario solution of C2. -/
def azureSolution : Solution := { id := "x", name := "Example AAC", category := "aac" }

/-- The azure-scenario runtime rule of C2: pretty-printed runtime name,
native support. -/
def azureRule : RuntimeSupportRow :=
  { solution_id := "x", runtime := "Azure Speech API", support_level := "native" }

/-- The azure-scenario voice of C2: slug-formatted runtime name. -/
def azureVoice : Voice := { id := "v1", name := "En Voice", runtime := "azure-speech-api" }

/-- The azure-scenario payload of C2. -/
def azurePayload : Payload :=
  { voices := [azureVoice], solutions := [azureSolution],
    solution_runtime_support := [azureRule] }

/-- The restrictive gender selection of the C6 counterexample. -/
def selMaleOnly : VoiceSelections := { selectedGenders := ["male"] }

/-- The same selection with one more gender value added. -/
def selMaleFemale : VoiceSelections := { selectedGenders := ["male", "female"] }

/-- A female voice rejected by the first selection. -/
def voiceFemale : Voice := { id := "vf", gender := "female" }

/-- A payload with an empty engines facet table. -/
def emptyEnginesPayload : Payload := { facets := { engines := [] } }

/-- A payload with a one-entry engines facet table. -/
def espeakPayload : Payload := { facets := { engines := [("espeak", 3)] } }

/-- The two tied solutions of the C3 counterexample. -/
def solBanana : Solution := { id := "b", name := "Banana", category := "aac" }

/-- See `solBanana`. -/
def solApple : Solution := { id := "a", name := "apple", category := "aac" }

/-- The C3 counterexample payload: two rule-less solutions. -/
def tiePayload : Payload := { solutions := [solBanana, solApple] }

/-- A kept provider rule of the C4 witness (banked, solution s1). -/
def bankRule1 : ProviderSupportRow :=
  { solution_id := "s1", provider := "Acapela", voice_origin := "banked" }

/-- A kept provider rule of the C4 witness (cloned, solution s2). -/
def bankRule2 : ProviderSupportRow :=
  { solution_id := "s2", provider := "Acapela", voice_origin := "cloned" }

/-- A visible solution row of the C4 witness. -/
def bankSolRowA : SolutionRow :=
  { id := "s1", name := "A", vendor := "", category := "aac", platforms := [],
    links := [], total := 0, nativeCount := 0, compatibleCount := 0,
    possibleCount := 0, voiceOrigins := [], requiresEnrollment := false,
    requiresUserAsset := false, matchedVoices := [] }

/-- The second visible solution row of the C4 witness. -/
def bankSolRowB : SolutionRow :=
  { bankSolRowA with id := "s2", name := "B" }

/-- The single roll-up row of the C4 witness. -/
def bankExRow : BankRow :=
  { provider := "Acapela", voiceOrigins := ["banked", "cloned"], appCount := 2,
    apps := ["s1", "s2"] }

/-- The claim-level best score: the maximum of the scores of the runtime
rules whose normalized runtime matches the voice's and the provider
rules whose normalized provider matches the voice's. -/
def bestRuleScore (rr pr : List Rule) (v : Voice) : Nat :=
  (((rr.filter (fun r => r.token = normalizeToken v.runtime)).map (fun r => r.score)) ++
   ((pr.filter (fun r => r.token = normalizeToken v.provider)).map
     (fun r => r.score))).foldl max 0

/-- What the per-voice loop body records for one voice: nothing when the
best score is zero, otherwise the voice with its score and reason. -/
def matchEntry (rr pr : List Rule) (v : Voice) : Option MatchedVoice :=
  if voiceBest rr pr v = 0 then none
  else some ⟨v, voiceBest rr pr v, voiceReason rr pr v⟩

/-- The solution row the azure payload produces. -/
def azureRow : SolutionRow :=
  { id := "x", name := "Example AAC", vendor := "", category := "aac", platforms := [],
    links := [], total := 1, nativeCount := 1, compatibleCount := 0, possibleCount := 0,
    voiceOrigins := [], requiresEnrollment := false, requiresUserAsset := false,
    matchedVoices := [⟨azureVoice, 3, "runtime"⟩] }

theorem listLt_irrefl (a : List Char) : listLt a a = false := by
  induction a with
  | nil => rfl
  | cons x xs ih => simp [listLt, ih]

theorem listLt_asymm (a b : List Char) (h : listLt a b = true) : listLt b a = false := by
  induction a generalizing b with
  | nil =>
    cases b with
    | nil => simpa [listLt] using h
    | cons y ys => rfl
  | cons x xs ih =>
    cases b with
    | nil => simp [listLt] at h
    | cons y ys =>
      by_cases hxy : x < y
      · have hyx : ¬ y < x := fun hc => absurd hxy (not_lt_of_gt hc)
        simp [listLt, hxy, hyx]
      · by_cases hyx : y < x
        · simp [listLt, hxy, hyx] at h
        · have := ih ys (by simpa [listLt, hxy, hyx] using h)
          simp [listLt, hxy, hyx, this]

theorem listLt_trans (a b c : List Char) (hab : listLt a b = true)
    (hbc : listLt b c = true) : listLt a c = true := by
  induction a generalizing b c with
  | nil =>
    cases c with
    | nil =>
      cases b with
      | nil => simpa [listLt] using hab
      | cons y ys => simp [listLt] at hbc
    | cons z zs => rfl
  | cons x xs ih =>
    cases b with
    | nil => simp [listLt] at hab
    | cons y ys =>
      cases c with
      | nil => simp [listLt] at hbc
      | cons z zs =>
        by_cases hxy : x < y
        · by_cases hyz : y < z
          · have hxz : x < z := lt_trans hxy hyz
            simp [listLt, hxz]
          · by_cases hzy : z < y
            · simp [listLt, hyz, hzy] at hbc
            · have hyz' : y = z := le_antisymm (not_lt.mp hzy) (not_lt.mp hyz)
              subst hyz'
              simp [listLt, hxy]
        · by_cases hyx : y < x
          · simp [listLt, hxy, hyx] at hab
          · have hxy' : x = y := le_antisymm (not_lt.mp hyx) (not_lt.mp hxy)
            subst hxy'
            by_cases hyz : x < z
            · simp [listLt, hyz]
            · by_cases hzy : z < x
              · simp [listLt, hyz, hzy] at hbc
              · have hxz : x = z := le_antisymm (not_lt.mp hzy) (not_lt.mp hyz)
                subst hxz
                have hab' : listLt xs ys = true := by
                  simpa [listLt, lt_irrefl] using hab
                have hbc' : listLt ys zs = true := by
                  simpa [listLt, lt_irrefl] using hbc
                simpa [listLt, lt_irrefl] using ih ys zs hab' hbc'

theorem listLt_total_eq (a b : List Char) (hab : listLt a b = false)
    (hba : listLt b a = false) : a = b := by
  induction a generalizing b with
  | nil =>
    cases b with
    | nil => rfl
    | cons y ys => simp [listLt] at hab
  | cons x xs ih =>
    cases b with
    | nil => simp [listLt] at hba
    | cons y ys =>
      by_cases hxy : x < y
      · simp [listLt, hxy] at hab
      · by_cases hyx : y < x
        · simp [listLt, hyx] at hba
        · have hxy' : x = y := le_antisymm (not_lt.mp hyx) (not_lt.mp hxy)
          subst hxy'
          have h1 : listLt xs ys = false := by simpa [listLt, lt_irrefl] using hab
          have h2 : listLt ys xs = false := by simpa [listLt, lt_irrefl] using hba
          rw [ih ys h1 h2]

theorem listLt_le_trans (a b c : List Char) (h1 : listLt b a = false)
    (h2 : listLt c b = false) : listLt c a = false := by
  by_cases h : listLt c a = true
  · exfalso
    by_cases hab : listLt a b = true
    · have hcb := listLt_trans _ _ _ h hab
      rw [hcb] at h2
      exact Bool.noConfusion h2
    · have heq : a = b := listLt_total_eq _ _ (by simpa using hab) h1
      rw [heq] at h
      rw [h] at h2
      exact Bool.noConfusion h2
  · simpa using h

theorem lcLt_asymm (a b : String) (h : lcLt a b = true) : lcLt b a = false := by
  unfold lcLt at *
  rcases Bool.or_eq_true_iff.mp h with h1 | h2
  · have hba := listLt_asymm _ _ h1
    have hne : ¬ lcPrimary b = lcPrimary a := by
      intro he
      rw [he, listLt_irrefl] at h1
      exact Bool.false_ne_true h1
    simp [hba, hne]
  · rcases Bool.and_eq_true_iff.mp h2 with ⟨hpe, ht⟩
    have hpe' : lcPrimary a = lcPrimary b := by simpa using hpe
    have hp : listLt (lcPrimary b) (lcPrimary a) = false := by
      rw [hpe']
      exact listLt_irrefl _
    have ht' := listLt_asymm _ _ ht
    simp [hp, hpe'.symm, ht', listLt_irrefl]

theorem lcLt_trans (a b c : String) (hab : lcLt a b = true) (hbc : lcLt b c = true) :
    lcLt a c = true := by
  unfold lcLt at *
  rcases Bool.or_eq_true_iff.mp hab with h1 | h2
  · rcases Bool.or_eq_true_iff.mp hbc with g1 | g2
    · exact Bool.or_eq_true_iff.mpr (Or.inl (listLt_trans _ _ _ h1 g1))
    · rcases Bool.and_eq_true_iff.mp g2 with ⟨gpe, _⟩
      have gpe' : lcPrimary b = lcPrimary c := by simpa using gpe
      rw [gpe'] at h1
      exact Bool.or_eq_true_iff.mpr (Or.inl h1)
  · rcases Bool.and_eq_true_iff.mp h2 with ⟨hpe, ht⟩
    have hpe' : lcPrimary a = lcPrimary b := by simpa using hpe
    rcases Bool.or_eq_true_iff.mp hbc with g1 | g2
    · rw [← hpe'] at g1
      exact Bool.or_eq_true_iff.mpr (Or.inl g1)
    · rcases Bool.and_eq_true_iff.mp g2 with ⟨gpe, gt⟩
      have gpe' : lcPrimary b = lcPrimary c := by simpa using gpe
      have hp : lcPrimary a = lcPrimary c := hpe'.trans gpe'
      exact Bool.or_eq_true_iff.mpr
        (Or.inr (Bool.and_eq_true_iff.mpr ⟨by simpa using hp, listLt_trans _ _ _ ht gt⟩))

theorem lcLt_false_keys (a b : String) (h1 : lcLt a b = false) (h2 : lcLt b a = false) :
    lcPrimary a = lcPrimary b ∧ lcTertiary a = lcTertiary b := by
  unfold lcLt at *
  rw [Bool.or_eq_false_iff] at h1 h2
  obtain ⟨p1, q1⟩ := h1
  obtain ⟨p2, q2⟩ := h2
  have hpe : lcPrimary a = lcPrimary b := listLt_total_eq _ _ p1 p2
  refine ⟨hpe, ?_⟩
  rw [Bool.and_eq_false_iff] at q1 q2
  rcases q1 with q1 | q1
  · rw [hpe] at q1
    simp at q1
  · rcases q2 with q2 | q2
    · rw [hpe] at q2
      simp at q2
    · exact listLt_total_eq _ _ q1 q2

theorem lcLt_congr_right (c a b : String) (hp : lcPrimary a = lcPrimary b)
    (ht : lcTertiary a = lcTertiary b) : lcLt c a = lcLt c b := by
  unfold lcLt
  rw [hp, ht]

theorem lcLt_false_trans (a b c : String) (hab : lcLt b a = false)
    (hbc : lcLt c b = false) : lcLt c a = false := by
  by_cases h : lcLt c a = true
  · exfalso
    by_cases hab2 : lcLt a b = true
    · have hcb := lcLt_trans _ _ _ h hab2
      rw [hcb] at hbc
      exact Bool.noConfusion hbc
    · obtain ⟨hp, ht⟩ := lcLt_false_keys a b (by simpa using hab2) hab
      rw [lcLt_congr_right c a b hp ht] at h
      rw [h] at hbc
      exact Bool.noConfusion hbc
  · simpa using h

theorem jsLocaleCompare_le_iff (a b : String) :
    jsLocaleCompare a b ≤ 0 ↔ lcLt b a = false := by
  unfold jsLocaleCompare
  by_cases h : lcLt a b = true
  · have h' := lcLt_asymm _ _ h
    simp [h, h']
  · by_cases h2 : lcLt b a = true <;> simp [h, h2]

theorem jsLocaleCompare_asymm (a b : String) :
    jsLocaleCompare a b < 0 ↔ 0 < jsLocaleCompare b a := by
  unfold jsLocaleCompare
  by_cases h : lcLt a b = true
  · have h' := lcLt_asymm _ _ h
    simp [h, h']
  · by_cases h2 : lcLt b a = true <;> simp [h, h2]

theorem jsLocaleCompare_le_trans (a b c : String) (hab : jsLocaleCompare a b ≤ 0)
    (hbc : jsLocaleCompare b c ≤ 0) : jsLocaleCompare a c ≤ 0 := by
  rw [jsLocaleCompare_le_iff] at *
  exact lcLt_false_trans _ _ _ hab hbc

/-- `localeCompare`-nonpositive implies case-insensitive (primary key)
order: a `localeCompare`-sorted list is case-insensitively sorted. -/
theorem jsLocaleCompare_le_primary (a b : String) (h : jsLocaleCompare a b ≤ 0) :
    listLt (lcPrimary b) (lcPrimary a) = false := by
  rw [jsLocaleCompare_le_iff] at h
  unfold lcLt at h
  rw [Bool.or_eq_false_iff] at h
  exact h.1

theorem insertLe_perm (le : α → α → Bool) (x : α) (l : List α) :
    (insertLe le x l).Perm (x :: l) := by
  induction l with
  | nil => exact List.Perm.refl _
  | cons y ys ih =>
    by_cases h : le x y = true
    · simp [insertLe, h]
    · simp only [insertLe, h]
      exact (ih.cons y).trans (List.Perm.swap x y ys)

theorem sortLe_perm (le : α → α → Bool) (l : List α) : (sortLe le l).Perm l := by
  induction l with
  | nil => exact List.Perm.refl _
  | cons x xs ih =>
    exact ((insertLe_perm le x (sortLe le xs)).trans (List.Perm.cons x ih))

theorem insertLe_pairwise (le : α → α → Bool)
    (htot : ∀ a b, le a b = true ∨ le b a = true)
    (htrans : ∀ a b c, le a b = true → le b c = true → le a c = true)
    (x : α) (l : List α) (hl : l.Pairwise (fun a b => le a b = true)) :
    (insertLe le x l).Pairwise (fun a b => le a b = true) := by
  induction l with
  | nil => simp [insertLe]
  | cons y ys ih =>
    rcases List.pairwise_cons.mp hl with ⟨hy, hys⟩
    by_cases h : le x y = true
    · simp only [insertLe, h, if_pos]
      refine List.pairwise_cons.mpr ⟨?_, hl⟩
      intro b hb
      rcases List.mem_cons.mp hb with rfl | hb
      · exact h
      · exact htrans _ _ _ h (hy b hb)
    · simp only [insertLe, h, if_neg, Bool.not_eq_true]
      refine List.pairwise_cons.mpr ⟨?_, ih hys⟩
      intro b hb
      have hb' := (insertLe_perm le x ys).mem_iff.mp hb
      rcases List.mem_cons.mp hb' with rfl | hb'
      · rcases htot y b with hyb | hby
        · exact hyb
        · exact absurd hby h
      · exact hy b hb'

theorem sortLe_pairwise (le : α → α → Bool)
    (htot : ∀ a b, le a b = true ∨ le b a = true)
    (htrans : ∀ a b c, le a b = true → le b c = true → le a c = true)
    (l : List α) : (sortLe le l).Pairwise (fun a b => le a b = true) := by
  induction l with
  | nil => simp [sortLe]
  | cons x xs ih => exact insertLe_pairwise le htot htrans x (sortLe le xs) ih

theorem withIdx_map_snd (l : List α) (i : Nat) : (withIdx l i).map Prod.snd = l := by
  induction l generalizing i with
  | nil => rfl
  | cons a t ih => simp [withIdx, ih]

theorem withIdx_mem_get (l : List α) (i : Nat) (p : Nat × α) (hp : p ∈ withIdx l i) :
    i ≤ p.1 ∧ l.get? (p.1 - i) = some p.2 := by
  induction l generalizing i with
  | nil => simp [withIdx] at hp
  | cons a t ih =>
    rcases List.mem_cons.mp hp with rfl | hp
    · simp
    · obtain ⟨h1, h2⟩ := ih (i + 1) hp
      refine ⟨by omega, ?_⟩
      have : p.1 - i = (p.1 - (i + 1)) + 1 := by omega
      rw [this]
      simpa using h2

theorem cmp_zero_symm (cmp : α → α → Int)
    (hasym : ∀ a b, cmp a b < 0 ↔ 0 < cmp b a) (a b : α) (h : cmp a b = 0) :
    cmp b a = 0 := by
  rcases lt_trichotomy (cmp b a) 0 with hlt | hz | hgt
  · have := (hasym b a).mp hlt
    omega
  · exact hz
  · have := (hasym a b).mpr hgt
    omega

theorem cmpIdxLe_total (cmp : α → α → Int)
    (hasym : ∀ a b, cmp a b < 0 ↔ 0 < cmp b a) (p q : Nat × α) :
    cmpIdxLe cmp p q = true ∨ cmpIdxLe cmp q p = true := by
  unfold cmpIdxLe
  rcases lt_trichotomy (cmp p.2 q.2) 0 with hlt | hz | hgt
  · left
    simp [hlt]
  · have hz' := cmp_zero_symm cmp hasym _ _ hz
    rcases Nat.le_total p.1 q.1 with hi | hi
    · left
      simp [hz, hi]
    · right
      simp [hz', hi]
  · right
    have := (hasym q.2 p.2).mpr hgt
    simp [this]

theorem cmp_lt_le_trans (cmp : α → α → Int)
    (hasym : ∀ a b, cmp a b < 0 ↔ 0 < cmp b a)
    (htrans : ∀ a b c, cmp a b ≤ 0 → cmp b c ≤ 0 → cmp a c ≤ 0)
    (a b c : α) (h1 : cmp a b < 0) (h2 : cmp b c ≤ 0) : cmp a c < 0 := by
  have hle : cmp a c ≤ 0 := htrans a b c (by omega) h2
  rcases lt_or_eq_of_le hle with hlt | hz
  · exact hlt
  · exfalso
    have hca : cmp c a = 0 := cmp_zero_symm cmp hasym _ _ hz
    have hba : cmp b a ≤ 0 := htrans b c a h2 (by omega)
    have : 0 < cmp b a := (hasym a b).mp h1
    omega

theorem cmp_le_lt_trans (cmp : α → α → Int)
    (hasym : ∀ a b, cmp a b < 0 ↔ 0 < cmp b a)
    (htrans : ∀ a b c, cmp a b ≤ 0 → cmp b c ≤ 0 → cmp a c ≤ 0)
    (a b c : α) (h1 : cmp a b ≤ 0) (h2 : cmp b c < 0) : cmp a c < 0 := by
  have hle : cmp a c ≤ 0 := htrans a b c h1 (by omega)
  rcases lt_or_eq_of_le hle with hlt | hz
  · exact hlt
  · exfalso
    have hca : cmp c a = 0 := cmp_zero_symm cmp hasym _ _ hz
    have hcb : cmp c b ≤ 0 := htrans c a b (by omega) h1
    have : 0 < cmp c b := (hasym b c).mp h2
    omega

theorem cmpIdxLe_trans (cmp : α → α → Int)
    (hasym : ∀ a b, cmp a b < 0 ↔ 0 < cmp b a)
    (htrans : ∀ a b c, cmp a b ≤ 0 → cmp b c ≤ 0 → cmp a c ≤ 0)
    (p q r : Nat × α) (h1 : cmpIdxLe cmp p q = true) (h2 : cmpIdxLe cmp q r = true) :
    cmpIdxLe cmp p r = true := by
  unfold cmpIdxLe at *
  have h1' : cmp p.2 q.2 < 0 ∨ (cmp p.2 q.2 = 0 ∧ p.1 ≤ q.1) := by
    rcases Bool.or_eq_true_iff.mp h1 with h | h
    · exact Or.inl (by simpa using h)
    · rcases Bool.and_eq_true_iff.mp h with ⟨ha, hb⟩
      exact Or.inr ⟨by simpa using ha, by simpa using hb⟩
  have h2' : cmp q.2 r.2 < 0 ∨ (cmp q.2 r.2 = 0 ∧ q.1 ≤ r.1) := by
    rcases Bool.or_eq_true_iff.mp h2 with h | h
    · exact Or.inl (by simpa using h)
    · rcases Bool.and_eq_true_iff.mp h with ⟨ha, hb⟩
      exact Or.inr ⟨by simpa using ha, by simpa using hb⟩
  rcases h1' with h | ⟨h, hi1⟩
  · have hlt : cmp p.2 r.2 < 0 := by
      rcases h2' with g | ⟨g, _⟩
      · exact cmp_lt_le_trans cmp hasym htrans p.2 q.2 r.2 h (by omega)
      · exact cmp_lt_le_trans cmp hasym htrans p.2 q.2 r.2 h (by omega)
    simp [hlt]
  · rcases h2' with g | ⟨g, hi2⟩
    · have hlt : cmp p.2 r.2 < 0 :=
        cmp_le_lt_trans cmp hasym htrans p.2 q.2 r.2 (by omega) g
      simp [hlt]
    · have hle : cmp p.2 r.2 ≤ 0 := htrans p.2 q.2 r.2 (by omega) (by omega)
      rcases lt_or_eq_of_le hle with hlt | hz
      · simp [hlt]
      · simp [hz, Nat.le_trans hi1 hi2]

theorem jsSortWithIdx_pairwise (cmp : α → α → Int)
    (hasym : ∀ a b, cmp a b < 0 ↔ 0 < cmp b a)
    (htrans : ∀ a b c, cmp a b ≤ 0 → cmp b c ≤ 0 → cmp a c ≤ 0) (l : List α) :
    (jsSortWithIdx cmp l).Pairwise
      (fun p q => cmp p.2 q.2 < 0 ∨ (cmp p.2 q.2 = 0 ∧ p.1 ≤ q.1)) := by
  have h := sortLe_pairwise (cmpIdxLe cmp) (cmpIdxLe_total cmp hasym)
    (cmpIdxLe_trans cmp hasym htrans) (withIdx l 0)
  refine h.imp ?_
  intro p q hpq
  unfold cmpIdxLe at hpq
  rcases Bool.or_eq_true_iff.mp hpq with h | h
  · exact Or.inl (by simpa using h)
  · rcases Bool.and_eq_true_iff.mp h with ⟨ha, hb⟩
    exact Or.inr ⟨by simpa using ha, by simpa using hb⟩

theorem jsSortBy_pairwise (cmp : α → α → Int)
    (hasym : ∀ a b, cmp a b < 0 ↔ 0 < cmp b a)
    (htrans : ∀ a b c, cmp a b ≤ 0 → cmp b c ≤ 0 → cmp a c ≤ 0) (l : List α) :
    (jsSortBy cmp l).Pairwise (fun a b => cmp a b ≤ 0) := by
  have h := jsSortWithIdx_pairwise cmp hasym htrans l
  unfold jsSortBy
  refine (List.pairwise_map.mpr (h.imp ?_))
  intro p q hpq
  rcases hpq with h | ⟨h, _⟩ <;> omega

theorem jsSortBy_perm (cmp : α → α → Int) (l : List α) : (jsSortBy cmp l).Perm l := by
  unfold jsSortBy jsSortWithIdx
  have h := (sortLe_perm (cmpIdxLe cmp) (withIdx l 0)).map Prod.snd
  rw [withIdx_map_snd] at h
  exact h

theorem jsSortBy_mem (cmp : α → α → Int) (l : List α) (a : α) :
    a ∈ jsSortBy cmp l ↔ a ∈ l :=
  (jsSortBy_perm cmp l).mem_iff

theorem foldl_addSet_eq (xs : List String) : ∀ acc : List String,
    xs.foldl addSet acc = acc ++ firstDedup (xs.filter (fun x => x ∉ acc)) := by
  induction xs with
  | nil => intro acc; simp [firstDedup]
  | cons x xs ih =>
    intro acc
    by_cases hx : x ∈ acc
    · have h1 : addSet acc x = acc := by simp [addSet, hx]
      have h2 : (x :: xs).filter (fun y => decide (y ∉ acc)) =
          xs.filter (fun y => decide (y ∉ acc)) := by
        simp [List.filter_cons, hx]
      simp only [List.foldl_cons, h1, h2]
      exact ih acc
    · have h1 : addSet acc x = acc ++ [x] := by simp [addSet, hx]
      have h2 : (x :: xs).filter (fun y => decide (y ∉ acc)) =
          x :: xs.filter (fun y => decide (y ∉ acc)) := by
        simp [List.filter_cons, hx]
      have h3 : xs.filter (fun y => decide (y ∉ acc ++ [x])) =
          (xs.filter (fun y => decide (y ∉ acc))).filter (fun y => decide (y ≠ x)) := by
        rw [List.filter_filter]
        refine List.filter_congr ?_
        intro y _
        by_cases hy : y ∈ acc
        · simp [hy]
        · by_cases hyx : y = x <;> simp [hy, hyx]
      simp only [List.foldl_cons, h1, h2]
      rw [ih (acc ++ [x]), h3]
      conv_rhs => rw [firstDedup]
      simp

theorem setOf_eq_firstDedup (l : List String) : jsSetOf l = firstDedup l := by
  have h := foldl_addSet_eq l []
  simpa [jsSetOf] using h

theorem mem_firstDedup (x : String) (l : List String) : x ∈ firstDedup l ↔ x ∈ l := by
  induction l using firstDedup.induct with
  | case1 => simp [firstDedup]
  | case2 a rest ih =>
    rw [firstDedup]
    constructor
    · intro h
      rcases List.mem_cons.mp h with rfl | h
      · exact List.mem_cons_self _ _
      · have := ih.mp h
        exact List.mem_cons_of_mem _ (List.mem_of_mem_filter this)
    · intro h
      rcases List.mem_cons.mp h with rfl | h
      · exact List.mem_cons_self _ _
      · by_cases hx : x = a
        · subst hx
          exact List.mem_cons_self _ _
        · exact List.mem_cons_of_mem _
            (ih.mpr (List.mem_filter.mpr ⟨h, by simpa using hx⟩))

theorem firstDedup_nodup (l : List String) : (firstDedup l).Nodup := by
  induction l using firstDedup.induct with
  | case1 => simp [firstDedup]
  | case2 a rest ih =>
    rw [firstDedup]
    refine List.nodup_cons.mpr ⟨?_, ih⟩
    intro hmem
    have := (mem_firstDedup _ _).mp hmem
    have := List.of_mem_filter this
    simp at this

theorem firstDedup_append_old (l : List String) (x : String) (hx : x ∈ l) :
    firstDedup (l ++ [x]) = firstDedup l := by
  induction l using firstDedup.induct with
  | case1 => simp at hx
  | case2 a rest ih =>
    by_cases hxa : x = a
    · subst hxa
      rw [List.cons_append, firstDedup]
      conv_rhs => rw [firstDedup]
      congr 1
      rw [List.filter_append]
      simp
    · rcases List.mem_cons.mp hx with h | h
      · exact absurd h hxa
      · rw [List.cons_append, firstDedup]
        conv_rhs => rw [firstDedup]
        congr 1
        rw [List.filter_append]
        have : ([x].filter (fun y => decide (y ≠ a))) = [x] := by simp [hxa]
        rw [this]
        exact ih (List.mem_filter.mpr ⟨h, by simpa using hxa⟩)

theorem firstDedup_append_new (l : List String) (x : String) (hx : x ∉ l) :
    firstDedup (l ++ [x]) = firstDedup l ++ [x] := by
  induction l using firstDedup.induct with
  | case1 => simp [firstDedup]
  | case2 a rest ih =>
    have hxa : x ≠ a := by
      intro h
      exact hx (h ▸ List.mem_cons_self a rest)
    rw [List.cons_append, firstDedup]
    conv_rhs => rw [firstDedup]
    rw [List.filter_append]
    have h1 : ([x].filter (fun y => decide (y ≠ a))) = [x] := by simp [hxa]
    rw [h1, List.cons_append]
    congr 1
    refine ih ?_
    intro hmem
    exact hx (List.mem_cons_of_mem _ (List.mem_of_mem_filter hmem))

theorem aggOf_append (fresh : β → γ) (upd : γ → β → γ) (m : List β) (b : β) (hm : m ≠ []) :
    aggOf fresh upd (m ++ [b]) = (aggOf fresh upd m).map (fun g => upd g b) := by
  cases m with
  | nil => exact absurd rfl hm
  | cons b0 rest => simp [aggOf, List.foldl_append]

theorem filterMap_fst_of_forall_some (ks : List String) (f : String → Option (String × γ))
    (hf : ∀ k ∈ ks, ∃ g, f k = some (k, g)) : (ks.filterMap f).map Prod.fst = ks := by
  induction ks with
  | nil => rfl
  | cons k ks ih =>
    obtain ⟨g, hg⟩ := hf k (List.mem_cons_self _ _)
    rw [List.filterMap_cons, hg]
    simp only [List.map_cons]
    rw [ih (fun k hk => hf k (List.mem_cons_of_mem _ hk))]

/-- Closed form of `groupBy`: one entry per distinct key in first-seen
order, each holding the aggregate of exactly the members with that key. -/
theorem groupBy_closed (key : β → String) (fresh : β → γ) (upd : γ → β → γ) (l : List β) :
    groupBy key fresh upd l =
      (firstDedup (l.map key)).filterMap
        (fun k => (aggOf fresh upd (l.filter (fun b => key b = k))).map (fun g => (k, g))) := by
  induction l using List.reverseRecOn with
  | nil => simp [groupBy, firstDedup]
  | append_singleton xs b ih =>
    have hstep : groupBy key fresh upd (xs ++ [b]) =
        groupUpd key fresh upd (groupBy key fresh upd xs) b := by
      simp [groupBy, List.foldl_append]
    rw [hstep, ih]
    have hmapkey : (xs ++ [b]).map key = xs.map key ++ [key b] := by simp
    by_cases hmem : key b ∈ xs.map key
    · -- the key already has a group: update it in place
      have hdedup : firstDedup ((xs ++ [b]).map key) = firstDedup (xs.map key) := by
        rw [hmapkey]
        exact firstDedup_append_old _ _ hmem
      have hne : xs.filter (fun v => key v = key b) ≠ [] := by
        obtain ⟨v, hv, hkv⟩ := List.mem_map.mp hmem
        intro hnil
        have : v ∈ xs.filter (fun w => key w = key b) :=
          List.mem_filter.mpr ⟨hv, by simpa using hkv⟩
        rw [hnil] at this
        simp at this
      have hany : (List.any ((firstDedup (xs.map key)).filterMap
          (fun k => (aggOf fresh upd (xs.filter (fun v => key v = k))).map
            (fun g => (k, g)))) (fun e => e.1 = key b)) = true := by
        rw [List.any_eq_true]
        have hk : key b ∈ firstDedup (xs.map key) := (mem_firstDedup _ _).mpr hmem
        obtain ⟨g, hg⟩ : ∃ g, aggOf fresh upd (xs.filter (fun w => key w = key b)) = some g := by
          cases hav : xs.filter (fun w => key w = key b) with
          | nil => exact absurd hav hne
          | cons c cs => exact ⟨_, rfl⟩
        refine ⟨(key b, g), List.mem_filterMap.mpr ⟨key b, hk, ?_⟩, by simp⟩
        rw [hg]
        rfl
      rw [hdedup]
      unfold groupUpd
      rw [if_pos hany, List.map_filterMap]
      refine List.filterMap_congr ?_
      intro k hk
      by_cases hkb : k = key b
      · have hne2 : xs.filter (fun v => key v = k) ≠ [] := by
          rw [hkb]
          exact hne
        have hfilter2 : (xs ++ [b]).filter (fun v => key v = k) =
            xs.filter (fun v => key v = k) ++ [b] := by
          rw [List.filter_append]
          simp [hkb]
        rw [hfilter2, aggOf_append _ _ _ _ hne2]
        obtain ⟨g, hg⟩ : ∃ g, aggOf fresh upd (xs.filter (fun w => key w = k)) = some g := by
          cases hav : xs.filter (fun w => key w = k) with
          | nil => exact absurd hav hne2
          | cons c cs => exact ⟨_, rfl⟩
        rw [hg]
        simp [hkb]
      · have hfilter2 : (xs ++ [b]).filter (fun v => key v = k) =
            xs.filter (fun v => key v = k) := by
          rw [List.filter_append]
          simp [Ne.symm hkb]
        rw [hfilter2]
        cases hag : aggOf fresh upd (xs.filter (fun v => key v = k)) with
        | none => rfl
        | some g => simp [hkb]
    · -- a brand-new key: append a fresh group at the end
      have hdedup : firstDedup ((xs ++ [b]).map key) = firstDedup (xs.map key) ++ [key b] := by
        rw [hmapkey]
        exact firstDedup_append_new _ _ hmem
      have hany : (List.any ((firstDedup (xs.map key)).filterMap
          (fun k => (aggOf fresh upd (xs.filter (fun v => key v = k))).map
            (fun g => (k, g)))) (fun e => e.1 = key b)) = false := by
        rw [Bool.eq_false_iff]
        intro hc
        rw [List.any_eq_true] at hc
        obtain ⟨e, he, hek⟩ := hc
        obtain ⟨k, hk, hf⟩ := List.mem_filterMap.mp he
        have he1 : e.1 = k := by
          cases hag : aggOf fresh upd (xs.filter (fun v => key v = k)) with
          | none => rw [hag] at hf; simp at hf
          | some g =>
            rw [hag] at hf
            injection hf with h
            rw [← h]
        rw [he1] at hek
        have hkm : k ∈ xs.map key := (mem_firstDedup _ _).mp hk
        rw [show k = key b by simpa using hek] at hkm
        exact hmem hkm
      rw [hdedup]
      unfold groupUpd
      rw [if_neg (by rw [hany]; exact Bool.false_ne_true), List.filterMap_append]
      have hlast : ([key b].filterMap
          (fun k => (aggOf fresh upd ((xs ++ [b]).filter (fun v => key v = k))).map
            (fun g => (k, g)))) = [(key b, upd (fresh b) b)] := by
        have hfb : (xs ++ [b]).filter (fun v => key v = key b) = [b] := by
          rw [List.filter_append]
          have h1 : xs.filter (fun v => key v = key b) = [] := by
            rw [List.filter_eq_nil_iff]
            intro v hv hkv
            exact hmem (List.mem_map.mpr ⟨v, hv, by simpa using hkv⟩)
          rw [h1]
          simp
        have hagg : (aggOf fresh upd ((xs ++ [b]).filter (fun v => key v = key b))) =
            some (upd (fresh b) b) := by
          rw [hfb]
          rfl
        simp only [List.filterMap_cons, List.filterMap_nil, hagg]
        rfl
      rw [hlast]
      congr 1
      refine List.filterMap_congr ?_
      intro k hk
      have hkxs : k ∈ xs.map key := (mem_firstDedup _ _).mp hk
      have hkb : k ≠ key b := by
        intro h
        rw [h] at hkxs
        exact hmem hkxs
      have hfilter2 : (xs ++ [b]).filter (fun v => key v = k) =
          xs.filter (fun v => key v = k) := by
        rw [List.filter_append]
        simp [Ne.symm hkb]
      rw [hfilter2]

theorem groupBy_fst (key : β → String) (fresh : β → γ) (upd : γ → β → γ) (l : List β) :
    (groupBy key fresh upd l).map Prod.fst = firstDedup (l.map key) := by
  rw [groupBy_closed]
  refine filterMap_fst_of_forall_some _ _ ?_
  intro k hk
  have hkm : k ∈ l.map key := (mem_firstDedup _ _).mp hk
  obtain ⟨v, hv, hkv⟩ := List.mem_map.mp hkm
  have hne : l.filter (fun w => key w = k) ≠ [] := by
    intro hnil
    have : v ∈ l.filter (fun w => key w = k) :=
      List.mem_filter.mpr ⟨hv, by simpa using hkv⟩
    rw [hnil] at this
    simp at this
  cases hav : l.filter (fun w => key w = k) with
  | nil => exact absurd hav hne
  | cons c cs =>
    exact ⟨cs.foldl upd (upd (fresh c) c), rfl⟩

theorem mem_groupBy (key : β → String) (fresh : β → γ) (upd : γ → β → γ) (l : List β)
    (e : String × γ) (he : e ∈ groupBy key fresh upd l) :
    e.1 ∈ firstDedup (l.map key) ∧
      aggOf fresh upd (l.filter (fun v => key v = e.1)) = some e.2 := by
  rw [groupBy_closed] at he
  obtain ⟨k, hk, hf⟩ := List.mem_filterMap.mp he
  cases hag : aggOf fresh upd (l.filter (fun v => key v = k)) with
  | none => rw [hag] at hf; simp at hf
  | some g =>
    rw [hag] at hf
    injection hf with h
    rw [← h]
    exact ⟨hk, hag⟩

theorem filter_length_partition (p : α → Bool) (l : List α) :
    (l.filter p).length + (l.filter (fun a => !(p a))).length = l.length := by
  induction l with
  | nil => rfl
  | cons a t ih =>
    by_cases h : p a = true
    · simp [List.filter_cons, h, ← ih]
      omega
    · have h' : p a = false := by simpa using h
      simp [List.filter_cons, h', ← ih]
      omega

theorem filter_ne_map_comm (key : β → String) (t : String) (rest : List β) :
    (rest.map key).filter (fun x => x ≠ t) =
      (rest.filter (fun u => key u ≠ t)).map key := by
  induction rest with
  | nil => rfl
  | cons u us ihu =>
    simp only [List.map_cons, List.filter_cons]
    by_cases hu : key u = t
    · simpa [hu] using ihu
    · simpa [hu] using ihu

theorem sum_firstDedup_filter_length_aux (key : β → String) :
    ∀ (n : Nat) (g : List β), g.length ≤ n →
      ((firstDedup (g.map key)).map
        (fun c => (g.filter (fun v => key v = c)).length)).sum = g.length := by
  intro n
  induction n with
  | zero =>
    intro g hg
    have : g = [] := List.length_eq_zero.mp (Nat.le_zero.mp hg)
    subst this
    simp [firstDedup]
  | succ n ih =>
    intro g hg
    cases g with
    | nil => simp [firstDedup]
    | cons v rest =>
      have hmapstep : (v :: rest).map key = key v :: rest.map key := rfl
      rw [hmapstep, firstDedup]
      have hfm := filter_ne_map_comm key (key v) rest
      rw [hfm]
      set restF := rest.filter (fun u => key u ≠ key v) with hrestF
      have hlenF : restF.length ≤ n := by
        rw [hrestF]
        have h1 := List.length_filter_le (fun u => decide (key u ≠ key v)) rest
        have h2 : rest.length ≤ n := by
          simpa using Nat.le_of_succ_le_succ hg
        omega
      have hIH := ih restF hlenF
      simp only [List.map_cons, List.sum_cons]
      have hterm1 : ((v :: rest).filter (fun w => key w = key v)).length =
          1 + (rest.filter (fun w => key w = key v)).length := by
        simp [List.filter_cons]
        omega
      have htermrest : ∀ c ∈ firstDedup (restF.map key),
          ((v :: rest).filter (fun w => key w = c)).length =
            (restF.filter (fun w => key w = c)).length := by
        intro c hc
        have hcm : c ∈ restF.map key := (mem_firstDedup _ _).mp hc
        obtain ⟨u, hu, hku⟩ := List.mem_map.mp hcm
        have hcv : c ≠ key v := by
          have hthis := List.of_mem_filter hu
          intro hcc
          rw [hcc] at hku
          simp [hku] at hthis
        have hdrop : ((v :: rest).filter (fun w => key w = c)) =
            rest.filter (fun w => key w = c) := by
          simp [List.filter_cons, Ne.symm hcv]
        rw [hdrop, hrestF, List.filter_filter]
        have hfeq : rest.filter (fun a => decide (key a = c) && decide (key a ≠ key v)) =
            rest.filter (fun w => key w = c) := by
          refine List.filter_congr ?_
          intro w _
          by_cases hw : key w = c
          · have hwv : key w ≠ key v := by
              rw [hw]
              exact hcv
            simp [hw, hwv, hcv]
          · simp [hw]
        rw [hfeq]
      have hmapeq : (firstDedup (restF.map key)).map
            (fun c => ((v :: rest).filter (fun w => key w = c)).length) =
          (firstDedup (restF.map key)).map
            (fun c => (restF.filter (fun w => key w = c)).length) :=
        List.map_congr_left htermrest
      rw [hterm1, hmapeq, hIH]
      have hpart : (rest.filter (fun w => key w = key v)).length + restF.length =
          rest.length := by
        rw [hrestF]
        have := filter_length_partition (fun w => decide (key w = key v)) rest
        have hsame : rest.filter (fun u => decide (key u ≠ key v)) =
            rest.filter (fun a => !(decide (key a = key v))) := by
          refine List.filter_congr ?_
          intro w _
          by_cases hw : key w = key v <;> simp [hw]
        rw [hsame]
        exact this
      simp only [List.length_cons]
      omega

theorem sum_firstDedup_filter_length (key : β → String) (g : List β) :
    ((firstDedup (g.map key)).map
      (fun c => (g.filter (fun v => key v = c)).length)).sum = g.length :=
  sum_firstDedup_filter_length_aux key g.length g le_rfl

theorem le_jsMathCeilDiv_mul (n P : Nat) (hP : 0 < P) : n ≤ jsMathCeilDiv n P * P := by
  have hdm := Nat.div_add_mod (n + P - 1) P
  have hr := Nat.mod_lt (n + P - 1) hP
  have hsub : P * ((n + P - 1) / P) = n + P - 1 - (n + P - 1) % P :=
    Nat.eq_sub_of_add_eq hdm
  have hgoal : n ≤ n + P - 1 - (n + P - 1) % P := by omega
  unfold jsMathCeilDiv
  rw [Nat.mul_comm, hsub]
  exact hgoal

theorem jsMathCeilDiv_eq_ceil (n P : Nat) (hP : 0 < P) :
    (jsMathCeilDiv n P : Int) = Int.ceil ((n : ℚ) / (P : ℚ)) := by
  have hPQ : (0 : ℚ) < (P : ℚ) := by exact_mod_cast hP
  have hmulle : jsMathCeilDiv n P * P ≤ n + P - 1 := Nat.div_mul_le_self (n + P - 1) P
  have hnle : n ≤ jsMathCeilDiv n P * P := le_jsMathCeilDiv_mul n P hP
  refine le_antisymm ?_ ?_
  · -- the Nat formula is at most the exact ceiling
    rcases Nat.eq_zero_or_pos (jsMathCeilDiv n P) with hz | hpos
    · rw [hz]
      exact_mod_cast Int.ceil_nonneg (by positivity)
    · have hkey : (jsMathCeilDiv n P - 1) * P < n := by
        have h1 : (jsMathCeilDiv n P - 1) * P = jsMathCeilDiv n P * P - P := by
          rw [Nat.sub_mul, one_mul]
        have hn1 : 1 ≤ n := by
          by_contra hn
          have hn0 : n = 0 := by omega
          have hz2 : jsMathCeilDiv n P = 0 := by
            have hzd : (P - 1) / P = 0 := Nat.div_eq_of_lt (by omega)
            unfold jsMathCeilDiv
            rw [hn0]
            simpa using hzd
          omega
        omega
      have : ((jsMathCeilDiv n P : Int) - 1) + 1 ≤ Int.ceil ((n : ℚ) / (P : ℚ)) := by
        rw [Int.add_one_le_ceil_iff, lt_div_iff₀ hPQ]
        have hcast : ((jsMathCeilDiv n P : ℚ) - 1) * (P : ℚ) < (n : ℚ) := by
          have h1 : ((jsMathCeilDiv n P - 1 : Nat) : ℚ) * (P : ℚ) < (n : ℚ) := by
            exact_mod_cast hkey
          have h2 : ((jsMathCeilDiv n P - 1 : Nat) : ℚ) = (jsMathCeilDiv n P : ℚ) - 1 := by
            have hge : 1 ≤ jsMathCeilDiv n P := hpos
            push_cast [hge]
            ring
          rw [h2] at h1
          exact h1
        push_cast
        exact hcast
      omega
  · -- the exact ceiling is at most the Nat formula
    rw [Int.ceil_le, div_le_iff₀ hPQ]
    exact_mod_cast hnle

theorem pages_join_take (P : Nat) (l : List α) (m : Nat) :
    ((List.range m).map (fun i => pageSlice l P (i + 1))).flatten = l.take (m * P) := by
  induction m with
  | zero => simp
  | succ m ih =>
    rw [List.range_succ, List.map_append, List.flatten_append]
    simp only [List.map_cons, List.map_nil, List.flatten_cons, List.flatten_nil,
      List.append_nil]
    rw [ih]
    have hslice : pageSlice l P (m + 1) = (l.drop (m * P)).take P := by
      unfold pageSlice
      norm_num
    rw [hslice, Nat.succ_mul, ← List.take_add]

/-- C9: for any item list and page size `P > 0`, the page count is
`max(1, ceil(N/P))`, every page is the contiguous window
`items.slice((k-1)·P, k·P)`, the pages concatenate back to the exact
original list, and the empty list yields one page with no items. -/
theorem c9_pagination_invariant (items : List α) (P : Nat) (hP : 0 < P) :
    pageCountOf items.length P =
      max 1 (Int.toNat (Int.ceil ((items.length : ℚ) / (P : ℚ)))) ∧
    (∀ k, pageSlice items P k = (items.drop ((k - 1) * P)).take P) ∧
    ((List.range (pageCountOf items.length P)).map
      (fun i => pageSlice items P (i + 1))).flatten = items ∧
    (items = [] → pageCountOf items.length P = 1 ∧ pageSlice items P 1 = []) := by
  refine ⟨?_, fun k => rfl, ?_, ?_⟩
  · have h := jsMathCeilDiv_eq_ceil items.length P hP
    unfold pageCountOf
    rw [← h]
    simp
  · rw [pages_join_take]
    refine List.take_of_length_le ?_
    have h1 : items.length ≤ jsMathCeilDiv items.length P * P :=
      le_jsMathCeilDiv_mul items.length P hP
    have h2 : jsMathCeilDiv items.length P ≤ max 1 (jsMathCeilDiv items.length P) :=
      le_max_right _ _
    unfold pageCountOf
    calc items.length ≤ jsMathCeilDiv items.length P * P := h1
      _ ≤ (max 1 (jsMathCeilDiv items.length P)) * P :=
        Nat.mul_le_mul_right _ h2
  · intro h
    subst h
    constructor
    · have hzd : (P - 1) / P = 0 := Nat.div_eq_of_lt (by omega)
      unfold pageCountOf jsMathCeilDiv
      simp [hzd]
    · simp [pageSlice]

/-- C9 witness at a concrete input: three items, page size two. -/
theorem c9_pagination_invariant_witness :
    0 < 2 ∧
    ((List.range (pageCountOf ([10, 20, 30] : List Nat).length 2)).map
      (fun i => pageSlice [10, 20, 30] 2 (i + 1))).flatten = [10, 20, 30] :=
  ⟨by decide, (c9_pagination_invariant [10, 20, 30] 2 (by decide)).2.2.1⟩

/-- C10: the reported stats always satisfy `voices = online + offline`,
`online` counts exactly the voices with mode `"online"`, and every other
voice (missing, empty or unrecognised mode) is counted as offline. -/
theorem c10_filteredStats_partition (l : List Voice) :
    (filteredStats l).voices = (filteredStats l).online + (filteredStats l).offline ∧
    (filteredStats l).online = (l.filter (fun v => v.mode = "online")).length ∧
    (filteredStats l).offline = (l.filter (fun v => v.mode ≠ "online")).length := by
  have hpart := filter_length_partition (fun v => decide (v.mode = "online")) l
  have hsame : l.filter (fun v => !(decide (v.mode = "online"))) =
      l.filter (fun v => v.mode ≠ "online") := by
    refine List.filter_congr ?_
    intro v _
    by_cases h : v.mode = "online" <;> simp [h]
  unfold filteredStats
  refine ⟨?_, rfl, ?_⟩
  · simp only
    omega
  · simp only
    rw [← hsame]
    omega

theorem listAll_of_forall_mem (P : α → Prop) (l : List α) (h : ∀ a ∈ l, P a) :
    ListAll P l := by
  induction l with
  | nil => trivial
  | cons a t ih =>
    exact ⟨h a (List.mem_cons_self _ _), ih (fun b hb => h b (List.mem_cons_of_mem _ hb))⟩

theorem matchesSelected_iff (S : List String) (v : String) :
    matchesSelected S v = true ↔ (S = [] ∨ v ∈ S) := by
  unfold matchesSelected
  cases S with
  | nil => simp
  | cons x xs => simp

/-- C8 counterexample: with the selection `{"Male"}` and a voice whose
gender is `"male"` — equal up to letter case — the filter rejects the
voice, so the gender check is not case-insensitive. -/
theorem c8_gender_case_counterexample :
    jsToLower "Male" = jsToLower "male" ∧
    matchesSelected selUpperMale.selectedGenders voiceLowerMale.gender = false ∧
    filteredVoices selUpperMale [voiceLowerMale] = [] := by decide

/-- C8 amended: the gender check of the voice filter evaluator is
case-sensitive — for a non-empty selection set the voice passes exactly
when its gender label is literally a member. -/
theorem c8_gender_exact_match (S : List String) (g : String) (hS : S ≠ []) :
    matchesSelected S g = true ↔ g ∈ S := by
  rw [matchesSelected_iff]
  simp [hS]

/-- C8 witness: a concrete non-empty selection containing the label. -/
theorem c8_gender_exact_match_witness :
    (["male"] : List String) ≠ [] ∧ matchesSelected ["male"] "male" = true :=
  ⟨by decide, (c8_gender_exact_match ["male"] "male" (by decide)).mpr (by decide)⟩

/-- C2: `normalizeToken` lower-cases and keeps exactly the characters in
`[a-z0-9]`, is total with the empty string mapping to the empty key, and
consequently the rule join collapses formatting drift: the solution with
the rule `(runtime = "Azure Speech API", level = "native")` counts the
pool voice with runtime `"azure-speech-api"` in its native tier. -/
theorem c2_normalizeToken_collapses_drift :
    (∀ s : String, (normalizeToken s).data = (jsToLower s).data.filter isTokenChar) ∧
    (∀ s : String, ListAll
      (fun c => ('a' ≤ c ∧ c ≤ 'z') ∨ ('0' ≤ c ∧ c ≤ '9')) (normalizeToken s).data) ∧
    normalizeToken "" = "" ∧
    normalizeToken "Azure Speech API" = normalizeToken "azure-speech-api" ∧
    (solutionRows azurePayload "aac" "all" "all"
      (accessibilityVoices {} azurePayload.voices)).map
        (fun r => (r.nativeCount, r.total)) = [(1, 1)] ∧
    (solutionRows azurePayload "aac" "all" "all"
      (accessibilityVoices {} azurePayload.voices)).map
        (fun r => r.matchedVoices.map (fun e => e.voice.id)) = [["v1"]] := by
  refine ⟨fun s => rfl, ?_, by decide, by decide, by decide, by decide⟩
  intro s
  refine listAll_of_forall_mem _ _ ?_
  intro c hc
  have hmem : c ∈ (jsToLower s).data.filter isTokenChar := by
    simpa [normalizeToken] using hc
  have hp := List.of_mem_filter hmem
  unfold isTokenChar at hp
  rcases Bool.or_eq_true_iff.mp hp with h | h
  · rcases Bool.and_eq_true_iff.mp h with ⟨h1, h2⟩
    exact Or.inl ⟨by simpa using h1, by simpa using h2⟩
  · rcases Bool.and_eq_true_iff.mp h with ⟨h1, h2⟩
    exact Or.inr ⟨by simpa using h1, by simpa using h2⟩

/-- C6 counterexample: adding `"female"` to the non-empty gender
selection grows the matched set from `∅` to `{vf}`, so the matcher is
not shrink-monotone in the selection sets. -/
theorem c6_monotonicity_counterexample :
    selMaleFemale.selectedGenders = selMaleOnly.selectedGenders ++ ["female"] ∧
    selMaleOnly.query = "" ∧ selMaleFemale.query = "" ∧
    filteredVoices selMaleOnly [voiceFemale] = [] ∧
    filteredVoices selMaleFemale [voiceFemale] = [voiceFemale] := by decide

/-- C6 amended: with an empty query, `matches` holds iff the voice's
value lies in every non-empty selection set and its engine is outside
the exclusion set; adding a value to the exclusion set or to an empty
selection set can only shrink or preserve the matched set, while adding
a value to a non-empty selection set can only grow or preserve it. -/
theorem c6_matcher_characterization :
    (∀ (sel : VoiceSelections) (v : Voice), sel.query = "" →
      (voiceMatches sel v = true ↔
        ((sel.selectedModes = [] ∨ v.mode ∈ sel.selectedModes) ∧
         (sel.selectedGenders = [] ∨ v.gender ∈ sel.selectedGenders) ∧
         (sel.selectedPlatforms = [] ∨ v.platform ∈ sel.selectedPlatforms) ∧
         (sel.selectedRuntimes = [] ∨ v.runtime ∈ sel.selectedRuntimes) ∧
         (sel.selectedProviders = [] ∨ v.provider ∈ sel.selectedProviders) ∧
         (sel.selectedEngineFamilies = [] ∨ v.engine_family ∈ sel.selectedEngineFamilies) ∧
         (sel.selectedDistributionChannels = [] ∨
           v.distribution_channel ∈ sel.selectedDistributionChannels) ∧
         v.engine ∉ sel.excludedEngines))) ∧
    (∀ (S : List String) (x g : String), S ≠ [] →
      matchesSelected S g = true → matchesSelected (S ++ [x]) g = true) ∧
    (∀ (sel : VoiceSelections) (v : Voice) (x : String),
      voiceMatches { sel with excludedEngines := sel.excludedEngines ++ [x] } v = true →
      voiceMatches sel v = true) ∧
    (∀ (sel : VoiceSelections) (v : Voice) (x : String), sel.selectedGenders = [] →
      voiceMatches { sel with selectedGenders := [x] } v = true →
      voiceMatches sel v = true) := by
  refine ⟨?_, ?_, ?_, ?_⟩
  · intro sel v hq
    unfold voiceMatches
    rw [hq]
    simp only [Bool.and_eq_true]
    constructor
    · intro h
      obtain ⟨⟨⟨⟨⟨⟨⟨⟨hm, hg⟩, hp⟩, hr⟩, hpr⟩, hef⟩, hdc⟩, hex⟩, _⟩ := h
      rw [matchesSelected_iff] at hm hg hp hr hpr hef hdc
      refine ⟨hm, hg, hp, hr, hpr, hef, hdc, ?_⟩
      intro hc
      simp [hc] at hex
    · intro h
      obtain ⟨hm, hg, hp, hr, hpr, hef, hdc, hex⟩ := h
      rw [← matchesSelected_iff] at hm hg hp hr hpr hef hdc
      refine ⟨⟨⟨⟨⟨⟨⟨⟨hm, hg⟩, hp⟩, hr⟩, hpr⟩, hef⟩, hdc⟩, by simpa using hex⟩, ?_⟩
      simp [jsTrim, jsToLower]
  · intro S x g hS h
    rw [matchesSelected_iff] at *
    rcases h with h | h
    · exact absurd h hS
    · exact Or.inr (List.mem_append_left _ h)
  · intro sel v x h
    unfold voiceMatches at h ⊢
    simp only [Bool.and_eq_true] at h ⊢
    obtain ⟨⟨⟨⟨⟨⟨⟨⟨hm, hg⟩, hp⟩, hr⟩, hpr⟩, hef⟩, hdc⟩, hex⟩, hq⟩ := h
    refine ⟨⟨⟨⟨⟨⟨⟨⟨hm, hg⟩, hp⟩, hr⟩, hpr⟩, hef⟩, hdc⟩, ?_⟩, hq⟩
    simp only [Bool.not_eq_true'] at hex ⊢
    rw [Bool.eq_false_iff] at hex ⊢
    intro hc
    apply hex
    have hmem : v.engine ∈ sel.excludedEngines := by simpa using hc
    simp [hmem]
  · intro sel v x hempty h
    unfold voiceMatches at h ⊢
    simp only [Bool.and_eq_true] at h ⊢
    obtain ⟨⟨⟨⟨⟨⟨⟨⟨hm, _⟩, hp⟩, hr⟩, hpr⟩, hef⟩, hdc⟩, hex⟩, hq⟩ := h
    refine ⟨⟨⟨⟨⟨⟨⟨⟨hm, ?_⟩, hp⟩, hr⟩, hpr⟩, hef⟩, hdc⟩, hex⟩, hq⟩
    rw [hempty]
    rfl

/-- C6 witness: the four parts of the characterization exercised at
concrete selections and voices. -/
theorem c6_matcher_characterization_witness :
    voiceMatches {} {} = true ∧
    matchesSelected (["male"] ++ ["female"]) "male" = true ∧
    voiceMatches selMaleOnly { gender := "male", engine := "e1" } = true ∧
    voiceMatches { selectedGenders := [] } { gender := "x" } = true :=
  ⟨(c6_matcher_characterization.1 {} {} rfl).mpr (by decide),
   c6_matcher_characterization.2.1 ["male"] "female" "male" (by decide) (by decide),
   c6_matcher_characterization.2.2.1 selMaleOnly { gender := "male", engine := "e1" } "e2"
     (by decide),
   c6_matcher_characterization.2.2.2 { selectedGenders := [] } { gender := "x" } "x" rfl
     (by decide)⟩

/-- C7 counterexample: the engine dimension carries no "all" sentinel —
an empty table yields the empty list, not the sentinel list, and a
non-empty table yields just its sorted values. -/
theorem c7_engine_sentinel_counterexample :
    engineOptions emptyEnginesPayload = [] ∧
    engineOptions emptyEnginesPayload ≠ ["all"] ∧
    engineOptions espeakPayload = ["espeak"] ∧
    "all" ∉ engineOptions espeakPayload := by decide

theorem sortedFacetKeys_sorted (table : List (String × Nat)) :
    (sortedFacetKeys table).Pairwise
      (fun a b => jsLocaleCompare a b ≤ 0 ∧ listLt (lcPrimary b) (lcPrimary a) = false) := by
  have h := jsSortBy_pairwise jsLocaleCompare jsLocaleCompare_asymm
    jsLocaleCompare_le_trans (table.map Prod.fst)
  exact h.imp (fun hab => ⟨hab, jsLocaleCompare_le_primary _ _ hab⟩)

/-- C7 amended: the six non-engine dimensions each yield the "all"
sentinel followed by the facet keys sorted ascending by the
locale-aware comparator (in particular, case-insensitively:
the case-folded keys are non-decreasing); the engine dimension yields
just the sorted keys with no sentinel; and an empty or missing table
yields only the sentinel (respectively the empty list for engines). -/
theorem c7_facet_options_amended (p : Payload) :
    platformOptions p = "all" :: sortedFacetKeys p.facets.platforms ∧
    genderOptions p = "all" :: sortedFacetKeys p.facets.genders ∧
    runtimeOptions p = "all" :: sortedFacetKeys p.facets.runtimes ∧
    providerOptions p = "all" :: sortedFacetKeys p.facets.providers ∧
    engineFamilyOptions p = "all" :: sortedFacetKeys p.facets.engine_families ∧
    distributionChannelOptions p = "all" :: sortedFacetKeys p.facets.distribution_channels ∧
    engineOptions p = sortedFacetKeys p.facets.engines ∧
    (∀ table : List (String × Nat), (sortedFacetKeys table).Pairwise
      (fun a b => jsLocaleCompare a b ≤ 0 ∧ listLt (lcPrimary b) (lcPrimary a) = false)) ∧
    sortedFacetKeys [] = [] := by
  exact ⟨rfl, rfl, rfl, rfl, rfl, rfl, rfl, sortedFacetKeys_sorted, rfl⟩

/-- C3 counterexample: both solutions have total 0, and the emitted tie
order is ["apple", "Banana"] — but in case-sensitive (code-point)
lexicographic order "Banana" comes strictly before "apple", so the tie
is not broken case-sensitively. -/
theorem c3_tie_order_counterexample :
    (solutionRows tiePayload "aac" "all" "all" []).map (fun r => r.name) =
      ["apple", "Banana"] ∧
    (solutionRows tiePayload "aac" "all" "all" []).map (fun r => r.total) = [0, 0] ∧
    strLt "Banana" "apple" = true := by decide

theorem solutionCmp_le_iff (a b : SolutionRow) : solutionCmp a b ≤ 0 ↔
    (b.total < a.total ∨ (a.total = b.total ∧ jsLocaleCompare a.name b.name ≤ 0)) := by
  unfold solutionCmp jsOr
  by_cases h : ((b.total : Int) - (a.total : Int)) = 0
  · rw [if_pos h]
    constructor
    · intro hlc
      exact Or.inr ⟨by omega, hlc⟩
    · intro hor
      rcases hor with hlt | ⟨_, hlc⟩
      · omega
      · exact hlc
  · rw [if_neg h]
    constructor
    · intro hle
      exact Or.inl (by omega)
    · intro hor
      rcases hor with hlt | ⟨heq, _⟩
      · omega
      · omega

theorem solutionCmp_asymm (a b : SolutionRow) :
    solutionCmp a b < 0 ↔ 0 < solutionCmp b a := by
  unfold solutionCmp jsOr
  by_cases h : ((b.total : Int) - (a.total : Int)) = 0
  · rw [if_pos h, if_pos (by omega)]
    exact jsLocaleCompare_asymm _ _
  · rw [if_neg h, if_neg (by omega)]
    omega

theorem solutionCmp_le_trans (a b c : SolutionRow) (h1 : solutionCmp a b ≤ 0)
    (h2 : solutionCmp b c ≤ 0) : solutionCmp a c ≤ 0 := by
  rw [solutionCmp_le_iff] at *
  rcases h1 with h1 | ⟨h1, h1'⟩
  · rcases h2 with h2 | ⟨h2, _⟩
    · exact Or.inl (by omega)
    · exact Or.inl (by omega)
  · rcases h2 with h2 | ⟨h2, h2'⟩
    · exact Or.inl (by omega)
    · exact Or.inr ⟨by omega, jsLocaleCompare_le_trans _ _ _ h1' h2'⟩

/-- C3 amended: the emitted solutions are ordered descending by total
matched count, with ties broken ascending by the locale-aware name
comparator (case-insensitive primary order, lower case before upper
case) — not by raw code-point order. -/
theorem c3_solution_ordering (p : Payload)
    (assistiveSubtab accPlatform solutionVoiceOrigin : String) (pool : List Voice) :
    (solutionRows p assistiveSubtab accPlatform solutionVoiceOrigin pool).Pairwise
      (fun a b => b.total < a.total ∨
        (a.total = b.total ∧ jsLocaleCompare a.name b.name ≤ 0)) := by
  unfold solutionRows
  have h := jsSortBy_pairwise solutionCmp solutionCmp_asymm solutionCmp_le_trans
  refine (h _).imp ?_
  intro a b hab
  exact (solutionCmp_le_iff a b).mp hab

theorem bankFold_voiceOrigins (m : List ProviderSupportRow) : ∀ g : BankGroup,
    (m.foldl bankUpd g).voiceOrigins = (m.map rowOrigin).foldl addSet g.voiceOrigins := by
  induction m with
  | nil => intro g; rfl
  | cons r rest ih => intro g; exact ih (bankUpd g r)

theorem bankFold_apps (m : List ProviderSupportRow) : ∀ g : BankGroup,
    (m.foldl bankUpd g).apps =
      (m.map (fun r => r.solution_id)).foldl addSet g.apps := by
  induction m with
  | nil => intro g; rfl
  | cons r rest ih => intro g; exact ih (bankUpd g r)

theorem bankAggOf_some (m : List ProviderSupportRow) (g : BankGroup)
    (h : aggOf (fun _ => ({ voiceOrigins := [], apps := [] } : BankGroup)) bankUpd m =
      some g) :
    g.voiceOrigins = firstDedup (m.map rowOrigin) ∧
    g.apps = firstDedup (m.map (fun r => r.solution_id)) := by
  cases m with
  | nil => simp [aggOf] at h
  | cons b rest =>
    have hg : g = (b :: rest).foldl bankUpd { voiceOrigins := [], apps := [] } := by
      have : aggOf (fun _ => ({ voiceOrigins := [], apps := [] } : BankGroup)) bankUpd
          (b :: rest) = some (rest.foldl bankUpd (bankUpd { voiceOrigins := [], apps := [] } b)) := rfl
      rw [this] at h
      injection h with h
      rw [← h]
      rfl
    subst hg
    constructor
    · rw [bankFold_voiceOrigins]
      have := setOf_eq_firstDedup ((b :: rest).map rowOrigin)
      simpa [jsSetOf] using this
    · rw [bankFold_apps]
      have := setOf_eq_firstDedup ((b :: rest).map (fun r => r.solution_id))
      simpa [jsSetOf] using this

theorem bankCmp_le_iff (a b : BankRow) : bankCmp a b ≤ 0 ↔
    (b.appCount < a.appCount ∨
      (a.appCount = b.appCount ∧ jsLocaleCompare a.provider b.provider ≤ 0)) := by
  unfold bankCmp jsOr
  by_cases h : ((b.appCount : Int) - (a.appCount : Int)) = 0
  · rw [if_pos h]
    constructor
    · intro hlc
      exact Or.inr ⟨by omega, hlc⟩
    · intro hor
      rcases hor with hlt | ⟨_, hlc⟩
      · omega
      · exact hlc
  · rw [if_neg h]
    constructor
    · intro hle
      exact Or.inl (by omega)
    · intro hor
      rcases hor with hlt | ⟨heq, _⟩ <;> omega

theorem bankCmp_asymm (a b : BankRow) : bankCmp a b < 0 ↔ 0 < bankCmp b a := by
  unfold bankCmp jsOr
  by_cases h : ((b.appCount : Int) - (a.appCount : Int)) = 0
  · rw [if_pos h, if_pos (by omega)]
    exact jsLocaleCompare_asymm _ _
  · rw [if_neg h, if_neg (by omega)]
    omega

theorem bankCmp_le_trans (a b c : BankRow) (h1 : bankCmp a b ≤ 0)
    (h2 : bankCmp b c ≤ 0) : bankCmp a c ≤ 0 := by
  rw [bankCmp_le_iff] at *
  rcases h1 with h1 | ⟨h1, h1'⟩
  · rcases h2 with h2 | ⟨h2, _⟩
    · exact Or.inl (by omega)
    · exact Or.inl (by omega)
  · rcases h2 with h2 | ⟨h2, h2'⟩
    · exact Or.inl (by omega)
    · exact Or.inr ⟨by omega, jsLocaleCompare_le_trans _ _ _ h1' h2'⟩

/-- C4: the roll-up has exactly one row per distinct (trimmed) provider
name among the kept provider rules — those of a surviving solution with
origin in the allowed set (the selected origin, or
{banked, cloned, hybrid, imported} when unrestricted) — each row carries
the sorted distinct origin tags that provider participates in and the
count (and sorted list) of distinct referencing solutions, and the rows
are sorted descending by app count, ties ascending by provider name. -/
theorem c4_voice_banking_rollup (providerRows : List ProviderSupportRow)
    (solRows : List SolutionRow) (solutionVoiceOrigin : String) :
    ((voiceBankingProviders providerRows solRows solutionVoiceOrigin).map
      (fun r => r.provider)).Perm
        (firstDedup ((bankKept providerRows solRows solutionVoiceOrigin).map
          (fun r => jsTrim r.provider))) ∧
    (∀ row ∈ voiceBankingProviders providerRows solRows solutionVoiceOrigin,
      row.voiceOrigins = sortLe strLe (firstDedup
        (((bankKept providerRows solRows solutionVoiceOrigin).filter
          (fun r => jsTrim r.provider = row.provider)).map rowOrigin)) ∧
      row.apps = sortLe strLe (firstDedup
        (((bankKept providerRows solRows solutionVoiceOrigin).filter
          (fun r => jsTrim r.provider = row.provider)).map (fun r => r.solution_id))) ∧
      row.appCount = (firstDedup
        (((bankKept providerRows solRows solutionVoiceOrigin).filter
          (fun r => jsTrim r.provider = row.provider)).map
            (fun r => r.solution_id))).length) ∧
    (voiceBankingProviders providerRows solRows solutionVoiceOrigin).Pairwise
      (fun a b => b.appCount < a.appCount ∨
        (a.appCount = b.appCount ∧ jsLocaleCompare a.provider b.provider ≤ 0)) := by
  refine ⟨?_, ?_, ?_⟩
  · unfold voiceBankingProviders
    have hperm := (jsSortBy_perm bankCmp
      ((bankGrouped providerRows solRows solutionVoiceOrigin).map bankFinalize)).map
        (fun r : BankRow => r.provider)
    refine hperm.trans ?_
    rw [List.map_map]
    have hfst := groupBy_fst (fun r : ProviderSupportRow => jsTrim r.provider)
      (fun _ => ({ voiceOrigins := [], apps := [] } : BankGroup)) bankUpd
      (bankKept providerRows solRows solutionVoiceOrigin)
    rw [show ((fun r : BankRow => r.provider) ∘ bankFinalize) = Prod.fst from rfl]
    unfold bankGrouped
    rw [hfst]
  · intro row hrow
    unfold voiceBankingProviders at hrow
    rw [jsSortBy_mem] at hrow
    obtain ⟨e, he, hrow⟩ := List.mem_map.mp hrow
    unfold bankGrouped at he
    obtain ⟨hk, hagg⟩ := mem_groupBy _ _ _ _ e he
    obtain ⟨ho, ha⟩ := bankAggOf_some _ _ hagg
    have hprov : row.provider = e.1 := by rw [← hrow]; rfl
    rw [hprov]
    subst hrow
    unfold bankFinalize
    simp only
    exact ⟨by rw [ho], by rw [ha], by rw [ha]⟩
  · unfold voiceBankingProviders
    have h := jsSortBy_pairwise bankCmp bankCmp_asymm bankCmp_le_trans
    refine (h _).imp ?_
    intro a b hab
    exact (bankCmp_le_iff a b).mp hab

/-- C4 witness: two rules of one provider across two visible solutions
produce one row with app count 2, and the app count is the number of
distinct referencing solutions. -/
theorem c4_voice_banking_rollup_witness :
    voiceBankingProviders [bankRule1, bankRule2] [bankSolRowA, bankSolRowB] "all" =
      [bankExRow] ∧
    bankExRow.appCount = (firstDedup
      (((bankKept [bankRule1, bankRule2] [bankSolRowA, bankSolRowB] "all").filter
        (fun r => jsTrim r.provider = bankExRow.provider)).map
          (fun r => r.solution_id))).length :=
  ⟨by decide,
   ((c4_voice_banking_rollup [bankRule1, bankRule2] [bankSolRowA, bankSolRowB] "all").2.1
     bankExRow (by decide)).2.2⟩

theorem foldl_max_filter (t : String) (rules : List Rule) : ∀ acc : Nat,
    rules.foldl (fun a r => if r.token = t then max a r.score else a) acc =
      ((rules.filter (fun r => r.token = t)).map (fun r => r.score)).foldl max acc := by
  induction rules with
  | nil => intro acc; rfl
  | cons r rest ih =>
    intro acc
    by_cases h : r.token = t
    · simp only [List.foldl_cons, List.filter_cons, h]
      simp [ih]
    · simp only [List.foldl_cons, List.filter_cons, h]
      simp [h, ih]

theorem voiceBest_eq_bestRuleScore (rr pr : List Rule) (v : Voice) :
    voiceBest rr pr v = bestRuleScore rr pr v := by
  unfold voiceBest bestRuleScore
  rw [foldl_max_filter, foldl_max_filter, List.foldl_append]

theorem scanVoices_closed (rr pr : List Rule) (pool : List Voice) : ∀ st : ScanState,
    (pool.foldl (scanStep rr pr) st).matchedVoices =
      st.matchedVoices ++ pool.filterMap (matchEntry rr pr) ∧
    (pool.foldl (scanStep rr pr) st).total =
      st.total + (pool.filterMap (matchEntry rr pr)).length := by
  induction pool with
  | nil => intro st; simp
  | cons v rest ih =>
    intro st
    simp only [List.foldl_cons]
    obtain ⟨ihm, iht⟩ := ih (scanStep rr pr st v)
    by_cases h : voiceBest rr pr v = 0
    · have hstep : scanStep rr pr st v = st := by simp [scanStep, h]
      have hentry : matchEntry rr pr v = none := by simp [matchEntry, h]
      refine ⟨?_, ?_⟩
      · rw [ihm, hstep, List.filterMap_cons, hentry]
      · rw [iht, hstep, List.filterMap_cons, hentry]
    · have hentry : matchEntry rr pr v =
          some ⟨v, voiceBest rr pr v, voiceReason rr pr v⟩ := by
        simp [matchEntry, h]
      have hm : (scanStep rr pr st v).matchedVoices =
          st.matchedVoices ++ [⟨v, voiceBest rr pr v, voiceReason rr pr v⟩] := by
        simp [scanStep, h]
      have ht : (scanStep rr pr st v).total = st.total + 1 := by
        simp [scanStep, h]
      refine ⟨?_, ?_⟩
      · rw [ihm, hm, List.filterMap_cons, hentry, List.append_assoc]
        rfl
      · rw [iht, ht, List.filterMap_cons, hentry, List.length_cons]
        omega

/-- C1: for every emitted solution row and every voice of the pool, the
joiner records the voice exactly when its best score — the maximum rule
score over the runtime rules matching its normalized runtime and the
provider rules matching its normalized provider, with
native=3 / compatible=2 / possible=1 / other=0 — is non-zero; a voice
matched by both rule families is tagged "runtime + provider"; and the
solution's total equals the length of the matched list, counting each
matched voice exactly once. -/
theorem c1_joiner_scoring (p : Payload)
    (assistiveSubtab accPlatform solutionVoiceOrigin : String) (pool : List Voice) :
    ∀ row ∈ solutionRows p assistiveSubtab accPlatform solutionVoiceOrigin pool,
      row.matchedVoices = pool.filterMap
        (matchEntry (runtimeRulesFor p.solution_runtime_support row.id)
          (providerRulesFor p.solution_provider_support row.id)) ∧
      row.total = row.matchedVoices.length ∧
      ∀ e ∈ row.matchedVoices,
        e.score = bestRuleScore (runtimeRulesFor p.solution_runtime_support row.id)
          (providerRulesFor p.solution_provider_support row.id) e.voice ∧
        e.score ≠ 0 ∧
        (((runtimeRulesFor p.solution_runtime_support row.id).any
            (fun r => r.token = normalizeToken e.voice.runtime)) = true →
          ((providerRulesFor p.solution_provider_support row.id).any
            (fun r => r.token = normalizeToken e.voice.provider)) = true →
          e.reason = "runtime + provider") := by
  intro row hrow
  unfold solutionRows at hrow
  rw [jsSortBy_mem] at hrow
  obtain ⟨s, hs, hsome⟩ := List.mem_filterMap.mp hrow
  by_cases h1 : s.id = ""
  · rw [if_pos h1] at hsome
    exact absurd hsome (by simp)
  rw [if_neg h1] at hsome
  by_cases h2 : assistiveSubtab = "aac" ∧ jsToLower s.category ≠ "aac"
  · rw [if_pos h2] at hsome
    exact absurd hsome (by simp)
  rw [if_neg h2] at hsome
  by_cases h3 : assistiveSubtab = "screenreader" ∧ jsToLower s.category ≠ "screenreader"
  · rw [if_pos h3] at hsome
    exact absurd hsome (by simp)
  rw [if_neg h3] at hsome
  by_cases h4 : accPlatform ≠ "all" ∧ ¬ ((s.platforms.map jsToLower).contains accPlatform)
  · rw [if_pos h4] at hsome
    exact absurd hsome (by simp)
  rw [if_neg h4] at hsome
  simp only at hsome
  by_cases h5 : solutionVoiceOrigin ≠ "all" ∧
      ¬ ((jsSetOf ((((runtimeRulesFor p.solution_runtime_support s.id) ++
        (providerRulesFor p.solution_provider_support s.id)).map
          (fun r => r.voiceOrigin)).filter (fun o => o ≠ ""))).contains solutionVoiceOrigin)
  · rw [if_pos h5] at hsome
    exact absurd hsome (by simp)
  rw [if_neg h5] at hsome
  injection hsome with hrow'
  subst hrow'
  obtain ⟨hm, ht⟩ := scanVoices_closed
    (runtimeRulesFor p.solution_runtime_support s.id)
    (providerRulesFor p.solution_provider_support s.id) pool ⟨0, 0, 0, 0, []⟩
  have hm' : (scanVoices (runtimeRulesFor p.solution_runtime_support s.id)
      (providerRulesFor p.solution_provider_support s.id) pool).matchedVoices =
      pool.filterMap (matchEntry (runtimeRulesFor p.solution_runtime_support s.id)
        (providerRulesFor p.solution_provider_support s.id)) := by
    unfold scanVoices
    rw [hm]
    rfl
  have ht' : (scanVoices (runtimeRulesFor p.solution_runtime_support s.id)
      (providerRulesFor p.solution_provider_support s.id) pool).total =
      (pool.filterMap (matchEntry (runtimeRulesFor p.solution_runtime_support s.id)
        (providerRulesFor p.solution_provider_support s.id))).length := by
    unfold scanVoices
    rw [ht]
    simp
  dsimp only
  refine ⟨hm', by rw [ht', hm'], ?_⟩
  rw [hm']
  intro e he
  obtain ⟨v, hv, hev⟩ := List.mem_filterMap.mp he
  by_cases hbest : voiceBest (runtimeRulesFor p.solution_runtime_support s.id)
      (providerRulesFor p.solution_provider_support s.id) v = 0
  · rw [matchEntry, if_pos hbest] at hev
    exact absurd hev (by simp)
  · rw [matchEntry, if_neg hbest] at hev
    injection hev with hev
    subst hev
    refine ⟨?_, ?_, ?_⟩
    · simp only
      exact voiceBest_eq_bestRuleScore _ _ _
    · simpa using hbest
    · intro hrm hpm
      simp only [voiceReason]
      rw [hrm, hpm]
      rfl

/-- C1 witness: the azure payload emits exactly one row, whose total is
the length of its matched list and whose one entry has non-zero score. -/
theorem c1_joiner_scoring_witness :
    solutionRows azurePayload "aac" "all" "all" [azureVoice] = [azureRow] ∧
    azureRow.total = azureRow.matchedVoices.length ∧
    (⟨azureVoice, 3, "runtime"⟩ : MatchedVoice).score ≠ 0 :=
  ⟨by decide,
   (c1_joiner_scoring azurePayload "aac" "all" "all" [azureVoice] azureRow (by decide)).2.1,
   ((c1_joiner_scoring azurePayload "aac" "all" "all" [azureVoice] azureRow
     (by decide)).2.2 ⟨azureVoice, 3, "runtime"⟩ (by decide)).2.1⟩

theorem clusterFold_fields (m : List Voice) : ∀ c0 : RawCluster,
    (m.foldl updCluster c0).count = c0.count + m.length ∧
    (m.foldl updCluster c0).points = c0.points + m.length ∧
    (m.foldl updCluster c0).latitude_sum = c0.latitude_sum + (m.map latQ).sum ∧
    (m.foldl updCluster c0).longitude_sum = c0.longitude_sum + (m.map lonQ).sum ∧
    (m.foldl updCluster c0).country_code = c0.country_code := by
  induction m with
  | nil => intro c0; simp
  | cons v rest ih =>
    intro c0
    obtain ⟨h1, h2, h3, h4, h5⟩ := ih (updCluster c0 v)
    simp only [List.foldl_cons, List.map_cons, List.sum_cons, List.length_cons]
    refine ⟨?_, ?_, ?_, ?_, ?_⟩
    · rw [h1]
      simp only [updCluster]
      omega
    · rw [h2]
      simp only [updCluster]
      omega
    · rw [h3]
      simp only [updCluster]
      ring
    · rw [h4]
      simp only [updCluster]
      ring
    · rw [h5]
      rfl

theorem mapClusters_closed (l : List Voice) :
    mapClusters l = (firstDedup ((geoVoices l).map countryKey)).filterMap
      (fun k => aggOf freshCluster updCluster
        ((geoVoices l).filter (fun v => countryKey v = k))) := by
  unfold mapClusters
  rw [groupBy_closed, List.map_filterMap]
  refine List.filterMap_congr ?_
  intro k _
  cases h : aggOf freshCluster updCluster
      ((geoVoices l).filter (fun v => countryKey v = k)) <;> simp [h]

theorem mapClusters_spec (l : List Voice) (c : RawCluster) (hc : c ∈ mapClusters l) :
    c.points = ((geoVoices l).filter
      (fun v => countryKey v = c.country_code)).length ∧
    c.count = ((geoVoices l).filter
      (fun v => countryKey v = c.country_code)).length ∧
    c.latitude_sum = (((geoVoices l).filter
      (fun v => countryKey v = c.country_code)).map latQ).sum ∧
    c.longitude_sum = (((geoVoices l).filter
      (fun v => countryKey v = c.country_code)).map lonQ).sum ∧
    c.points ≠ 0 := by
  rw [mapClusters_closed] at hc
  obtain ⟨k, hk, hf⟩ := List.mem_filterMap.mp hc
  cases hm : (geoVoices l).filter (fun v => countryKey v = k) with
  | nil =>
    rw [hm] at hf
    simp [aggOf] at hf
  | cons b rest =>
    rw [hm] at hf
    have hc' : c = (b :: rest).foldl updCluster (freshCluster b) := by
      unfold aggOf at hf
      injection hf with hf
      rw [← hf]
      rfl
    obtain ⟨h1, h2, h3, h4, h5⟩ := clusterFold_fields (b :: rest) (freshCluster b)
    have hcode : c.country_code = k := by
      rw [hc', h5]
      have hb : b ∈ (geoVoices l).filter (fun v => countryKey v = k) := by
        rw [hm]
        exact List.mem_cons_self _ _
      have := List.of_mem_filter hb
      simpa [freshCluster] using this
    rw [hcode, hm]
    rw [hc']
    refine ⟨?_, ?_, ?_, ?_, ?_⟩
    · rw [h2]
      simp [freshCluster]
    · rw [h1]
      simp [freshCluster]
    · rw [h3]
      simp [freshCluster]
    · rw [h4]
      simp [freshCluster]
    · rw [h2]
      simp [freshCluster]

theorem pointCmp_asymm (a b : MapPoint) : pointCmp a b < 0 ↔ 0 < pointCmp b a := by
  unfold pointCmp
  omega

theorem pointCmp_le_trans (a b c : MapPoint) (h1 : pointCmp a b ≤ 0)
    (h2 : pointCmp b c ≤ 0) : pointCmp a c ≤ 0 := by
  unfold pointCmp at *
  omega

theorem mapPointsPre_eq (l : List Voice) :
    mapPointsPre l = (mapClusters l).map finalizeCluster := by
  unfold mapPointsPre
  congr 1
  rw [List.filter_eq_self]
  intro c hc
  have h := (mapClusters_spec l c hc).2.2.2.2
  simpa using h

theorem sum_counts_filterMap (ks : List String) (cnt : String → Nat)
    (f : String → Option RawCluster)
    (hf : ∀ k ∈ ks, ∃ c, f k = some c ∧ c.count = cnt k) :
    ((ks.filterMap f).map (fun c => c.count)).sum = (ks.map cnt).sum := by
  induction ks with
  | nil => rfl
  | cons k ks ih =>
    obtain ⟨c, hc, hcnt⟩ := hf k (List.mem_cons_self _ _)
    rw [List.filterMap_cons, hc]
    simp only [List.map_cons, List.sum_cons]
    rw [ih (fun k hk => hf k (List.mem_cons_of_mem _ hk)), hcnt]

theorem mapClusters_counts_sum (l : List Voice) :
    ((mapClusters l).map (fun c => c.count)).sum = (geoVoices l).length := by
  rw [mapClusters_closed]
  rw [sum_counts_filterMap (firstDedup ((geoVoices l).map countryKey))
    (fun k => ((geoVoices l).filter (fun v => countryKey v = k)).length)]
  · exact sum_firstDedup_filter_length countryKey (geoVoices l)
  · intro k hk
    have hkm : k ∈ (geoVoices l).map countryKey := (mem_firstDedup _ _).mp hk
    obtain ⟨v, hv, hkv⟩ := List.mem_map.mp hkm
    cases hm : (geoVoices l).filter (fun w => countryKey w = k) with
    | nil =>
      exfalso
      have : v ∈ (geoVoices l).filter (fun w => countryKey w = k) :=
        List.mem_filter.mpr ⟨hv, by simpa using hkv⟩
      rw [hm] at this
      simp at this
    | cons b rest =>
      refine ⟨(b :: rest).foldl updCluster (freshCluster b), rfl, ?_⟩
      obtain ⟨h1, _, _, _, _⟩ := clusterFold_fields (b :: rest) (freshCluster b)
      rw [h1]
      simp [freshCluster]

/-- C5: the geo aggregator never emits a zero-point cluster; the emitted
counts sum to the number of filtered voices carrying both coordinates;
every cluster's point and voice counts equal the number of contributing
voices (those with its country key) and its centroid coordinates are the
arithmetic means of their coordinates; the output is the stable
descending-by-count sort of the clusters in discovery order — so sorted
descending by count, with ties keeping their discovery positions. -/
theorem c5_geo_aggregation (l : List Voice) :
    ListAll (fun p : MapPoint => p.points ≠ 0) (mapPoints l) ∧
    ((mapPoints l).map (fun p => p.count)).sum = (geoVoices l).length ∧
    ListAll (fun p : MapPoint =>
      p.points = ((geoVoices l).filter
        (fun v => countryKey v = p.country_code)).length ∧
      p.count = ((geoVoices l).filter
        (fun v => countryKey v = p.country_code)).length ∧
      p.latitude = (((geoVoices l).filter
        (fun v => countryKey v = p.country_code)).map latQ).sum /
          ((((geoVoices l).filter
            (fun v => countryKey v = p.country_code)).length : Nat) : ℚ) ∧
      p.longitude = (((geoVoices l).filter
        (fun v => countryKey v = p.country_code)).map lonQ).sum /
          ((((geoVoices l).filter
            (fun v => countryKey v = p.country_code)).length : Nat) : ℚ))
      (mapPoints l) ∧
    (mapPoints l).Pairwise (fun a b => b.count ≤ a.count) ∧
    mapPoints l = (mapPointsIdx l).map Prod.snd ∧
    (mapPointsIdx l).Pairwise
      (fun pq qr => pq.2.count ≠ qr.2.count ∨ pq.1 ≤ qr.1) ∧
    ListAll (fun pq : Nat × MapPoint => (mapPointsPre l).get? pq.1 = some pq.2)
      (mapPointsIdx l) ∧
    mapPointsPre l = (mapClusters l).map finalizeCluster := by
  have hmem : ∀ p ∈ mapPoints l, ∃ c ∈ mapClusters l, p = finalizeCluster c := by
    intro p hp
    have hp' : p ∈ mapPointsPre l := (jsSortBy_mem pointCmp (mapPointsPre l) p).mp hp
    rw [mapPointsPre_eq] at hp'
    obtain ⟨c, hc, hpc⟩ := List.mem_map.mp hp'
    exact ⟨c, hc, hpc.symm⟩
  refine ⟨?_, ?_, ?_, ?_, rfl, ?_, ?_, mapPointsPre_eq l⟩
  · refine listAll_of_forall_mem _ _ ?_
    intro p hp
    obtain ⟨c, hc, rfl⟩ := hmem p hp
    exact (mapClusters_spec l c hc).2.2.2.2
  · have hperm := (jsSortBy_perm pointCmp (mapPointsPre l)).map (fun p : MapPoint => p.count)
    rw [show ((mapPoints l).map (fun p => p.count)).sum =
        ((jsSortBy pointCmp (mapPointsPre l)).map (fun p : MapPoint => p.count)).sum from rfl]
    rw [hperm.sum_eq, mapPointsPre_eq, List.map_map]
    rw [show ((fun p : MapPoint => p.count) ∘ finalizeCluster) =
        (fun c : RawCluster => c.count) from rfl]
    exact mapClusters_counts_sum l
  · refine listAll_of_forall_mem _ _ ?_
    intro p hp
    obtain ⟨c, hc, rfl⟩ := hmem p hp
    obtain ⟨h1, h2, h3, h4, _⟩ := mapClusters_spec l c hc
    have hcode : (finalizeCluster c).country_code = c.country_code := rfl
    rw [hcode]
    refine ⟨h1, h2, ?_, ?_⟩
    · show c.latitude_sum / (c.points : ℚ) = _
      rw [h3, h1]
    · show c.longitude_sum / (c.points : ℚ) = _
      rw [h4, h1]
  · have h := jsSortBy_pairwise pointCmp pointCmp_asymm pointCmp_le_trans (mapPointsPre l)
    refine h.imp ?_
    intro a b hab
    unfold pointCmp at hab
    omega
  · have h := jsSortWithIdx_pairwise pointCmp pointCmp_asymm pointCmp_le_trans
      (mapPointsPre l)
    refine h.imp ?_
    intro pq qr h
    rcases h with h | ⟨h, hi⟩
    · left
      unfold pointCmp at h
      omega
    · right
      exact hi
  · refine listAll_of_forall_mem _ _ ?_
    intro pq hpq
    have hpq' : pq ∈ withIdx (mapPointsPre l) 0 :=
      (sortLe_perm (cmpIdxLe pointCmp) (withIdx (mapPointsPre l) 0)).mem_iff.mp hpq
    have := withIdx_mem_get (mapPointsPre l) 0 pq hpq'
    simpa using this.2
